import Mathlib

set_option linter.unusedSectionVars false
set_option linter.unusedVariables false

/-!
LRU: an ordered associative container (`lru.hpp`)

The class template `LRU<Key, T, Hash, KeyEqual, Allocator>` keeps two members:

* `m_data  : std::list<std::pair<const Key, T>>`, the ordered sequence;
* `m_index : std::unordered_map<reference_wrapper<const Key>, const iterator>`,
  the key index, whose keys refer to the keys stored in the list nodes and whose
  values are list iterators.

Embedding.

* A list node is a record `Node` carrying its address `id` (what a list iterator
  points to), its key `first` and its value `second`.  A `std::list` is the list
  of its nodes from front to back.
* A list iterator is `Option Nat`: `some i` designates the node with address `i`,
  `none` is the past-the-end iterator `m_data.end()`.
* The unordered map is an association list of `(key, node address)`; hashing and
  `KeyEqual` are decidable equality on `K`.  The order of the association list
  is never observed.
* Operations that may throw take the outcome of the throwing step as an input
  (`reg : Bool`, whether `m_index.emplace` succeeds) and return the container
  after the call together with `Except Exn _`.
* Operations that dereference a handle return `Option`; `none` stands for a call
  outside the C++ precondition (the handle does not designate a live node).
* Hashing, key comparison and the construction of keys and values are taken to
  be pure and not to throw; the allocation of a list node is taken to succeed.
* Where a `return` statement or an assignment of the source does not match the
  declared type (`operator[](const K&)`, `erase(first, last)`, and the write
  through the result of `operator[](K&&)` in `example.cpp`), the result carries
  a tag that names what the statement hands back, or the statement yields `none`.
-/

/-- A `std::list` iterator: `some i` is the node at address `i`, `none` is `end()`. -/
abbrev iterator := Option Nat

/-- One node of `m_data`: its address and the stored `std::pair<const Key, T>`. -/
structure Node (K V : Type) where
  id : Nat
  first : K
  second : V
deriving DecidableEq

/-- The exceptions that leave the container's member functions. -/
inductive Exn where
  | bad_alloc
  | out_of_range
deriving DecidableEq

/-- What the operand of the `return` statement of an `erase` member is: an `iterator`, as
`m_data.erase(pos)` gives in `erase(pos)`, or a `const_iterator`, as the parameter `first` of
`erase(first, last)` is. -/
inductive ReturnedIter where
  | of_iterator (it : iterator)
  | of_const_iterator (it : iterator)
deriving DecidableEq

section StdList

variable {K V : Type}

/-- The address handed out for the next list node: one not used by a live node. -/
def freshId (l : List (Node K V)) : Nat :=
  (l.map Node.id).foldr max 0 + 1

/-- Model of `std::list::emplace(pos, ...)`: the new node `x` is linked immediately before the
node designated by `pos` (at the back when `pos` is `end()`). -/
def list_emplace (l : List (Node K V)) (pos : iterator) (x : Node K V) : List (Node K V) :=
  l.takeWhile (fun n => decide (some n.id ≠ pos)) ++ x :: l.dropWhile (fun n => decide (some n.id ≠ pos))

/-- Model of `std::list::erase(it)`: the node at address `i` is unlinked. -/
def list_erase (l : List (Node K V)) (i : Nat) : List (Node K V) :=
  l.eraseP (fun n => decide (n.id = i))

/-- The iterator following the node at address `i` (what `std::list::erase(it)` returns). -/
def list_next : List (Node K V) → Nat → iterator
  | [], _ => none
  | n :: l, i => if n.id = i then l.head?.map Node.id else list_next l i

/-- The node an iterator designates, if any. -/
def list_deref (l : List (Node K V)) (it : iterator) : Option (Node K V) :=
  match it with
  | none => none
  | some i => l.find? (fun n => decide (n.id = i))

/-- Model of `std::list::splice(pos, *this, it)`: the node at address `i` is unlinked and linked
again immediately before `pos`; nothing happens when `pos` designates that node. -/
def list_splice (l : List (Node K V)) (pos : iterator) (i : Nat) : List (Node K V) :=
  if pos = some i then l
  else
    match list_deref l (some i) with
    | none => l
    | some n => list_emplace (list_erase l i) pos n

end StdList

section StdUnorderedMap

variable {K : Type} [DecidableEq K]

/-- Model of `std::unordered_map::find`: the element whose key equals `k`, if any. -/
def umap_find (idx : List (K × Nat)) (k : K) : Option (K × Nat) :=
  idx.find? (fun e => decide (e.1 = k))

/-- Model of `std::unordered_map::count`: the number of elements whose key equals `k`. -/
def umap_count (idx : List (K × Nat)) (k : K) : Nat :=
  idx.countP (fun e => decide (e.1 = k))

/-- Model of `std::unordered_map::emplace(k, it)`.  With `reg = false` the insertion throws and the
map is unchanged; otherwise the pair is added unless an element with key `k` exists. -/
def umap_emplace (reg : Bool) (idx : List (K × Nat)) (k : K) (it : Nat) :
    Except Exn (List (K × Nat)) :=
  if reg then
    match umap_find idx k with
    | some _ => Except.ok idx
    | none => Except.ok ((k, it) :: idx)
  else Except.error Exn.bad_alloc

/-- Model of `std::unordered_map::erase`, by key or by the iterator `find` returned for that key:
the element with key `k` is removed. -/
def umap_erase (idx : List (K × Nat)) (k : K) : List (K × Nat) :=
  idx.eraseP (fun e => decide (e.1 = k))

end StdUnorderedMap

/-- The container: its two data members. -/
structure LRU (K V : Type) where
  m_data : List (Node K V)
  m_index : List (K × Nat)

namespace LRU

variable {K V : Type} [DecidableEq K]

/-- The default constructor `LRU() = default`: both members empty. -/
def init : LRU K V := ⟨[], []⟩

/-- Source `empty()`: `return m_index.empty();` -/
def empty (c : LRU K V) : Bool := c.m_index.isEmpty

/-- Source `size()`: `return m_index.size();` -/
def size (c : LRU K V) : Nat := c.m_index.length

/-- Source `clear()`: `m_index.clear(); m_data.clear();` -/
def clear (_c : LRU K V) : LRU K V := ⟨[], []⟩

/-- Source `begin()`: `return m_data.begin();` -/
def begin (c : LRU K V) : iterator := c.m_data.head?.map Node.id

/-- Source `end()`: `return m_data.end();` -/
def end_ (_c : LRU K V) : iterator := none

/-- The entry a handle resolves to (`*it`), if it designates a live node. -/
def deref (c : LRU K V) (it : iterator) : Option (Node K V) := list_deref c.m_data it

/-- A position that may be passed as insertion or splice target: a live node or `end()`. -/
def validPos (c : LRU K V) (pos : iterator) : Bool :=
  match pos with
  | none => true
  | some i => (c.deref (some i)).isSome

/-- Source `emplace(iterator pos, Args&&... args)` with `args = (k, v)`:
the candidate node is linked first, then the index is searched for its key. -/
def emplace (c : LRU K V) (pos : iterator) (k : K) (v : V) (reg : Bool) :
    LRU K V × Except Exn (iterator × Bool) :=
  let cand : Node K V := ⟨freshId c.m_data, k, v⟩
  let data1 := list_emplace c.m_data pos cand
  let data_it := cand.id
  match umap_find c.m_index cand.first with
  | some index_it => (⟨list_erase data1 data_it, c.m_index⟩, Except.ok (some index_it.2, false))
  | none =>
    match umap_emplace reg c.m_index cand.first data_it with
    | Except.ok idx => (⟨data1, idx⟩, Except.ok (some data_it, true))
    | Except.error e => (⟨list_erase data1 data_it, c.m_index⟩, Except.error e)

/-- Source `emplace_front`: `return emplace(m_data.begin(), args...);` -/
def emplace_front (c : LRU K V) (k : K) (v : V) (reg : Bool) :
    LRU K V × Except Exn (iterator × Bool) :=
  c.emplace c.begin k v reg

/-- Source `emplace_back`: `return emplace(m_data.end(), args...);` -/
def emplace_back (c : LRU K V) (k : K) (v : V) (reg : Bool) :
    LRU K V × Except Exn (iterator × Bool) :=
  c.emplace c.end_ k v reg

/-- Source `try_emplace(iterator pos, const key_type& key, Args&&... args)`: the index is searched
first; a node is constructed only when the key is absent. -/
def try_emplace (c : LRU K V) (pos : iterator) (key : K) (args : V) (reg : Bool) :
    LRU K V × Except Exn (iterator × Bool) :=
  match umap_find c.m_index key with
  | some index_it => (c, Except.ok (some index_it.2, false))
  | none =>
    let cand : Node K V := ⟨freshId c.m_data, key, args⟩
    let data1 := list_emplace c.m_data pos cand
    let data_it := cand.id
    match umap_emplace reg c.m_index cand.first data_it with
    | Except.ok idx => (⟨data1, idx⟩, Except.ok (some data_it, true))
    | Except.error e => (⟨list_erase data1 data_it, c.m_index⟩, Except.error e)

/-- Source `try_emplace_front(const key_type&, Args&&...)`. -/
def try_emplace_front (c : LRU K V) (key : K) (args : V) (reg : Bool) :
    LRU K V × Except Exn (iterator × Bool) :=
  c.try_emplace c.begin key args reg

/-- Source `try_emplace_back(const key_type&, Args&&...)`. -/
def try_emplace_back (c : LRU K V) (key : K) (args : V) (reg : Bool) :
    LRU K V × Except Exn (iterator × Bool) :=
  c.try_emplace c.end_ key args reg

/-- Source `try_emplace(iterator pos, key_type&& key, Args&&... args)`: the same steps as the
overload taking `const key_type&`, the key being moved into the new node. -/
def try_emplace_rv (c : LRU K V) (pos : iterator) (key : K) (args : V) (reg : Bool) :
    LRU K V × Except Exn (iterator × Bool) :=
  match umap_find c.m_index key with
  | some index_it => (c, Except.ok (some index_it.2, false))
  | none =>
    let cand : Node K V := ⟨freshId c.m_data, key, args⟩
    let data1 := list_emplace c.m_data pos cand
    let data_it := cand.id
    match umap_emplace reg c.m_index cand.first data_it with
    | Except.ok idx => (⟨data1, idx⟩, Except.ok (some data_it, true))
    | Except.error e => (⟨list_erase data1 data_it, c.m_index⟩, Except.error e)

/-- Source `try_emplace_front(key_type&&, Args&&...)`. -/
def try_emplace_front_rv (c : LRU K V) (key : K) (args : V) (reg : Bool) :
    LRU K V × Except Exn (iterator × Bool) :=
  c.try_emplace_rv c.begin key args reg

/-- Source `try_emplace_back(key_type&&, Args&&...)`. -/
def try_emplace_back_rv (c : LRU K V) (key : K) (args : V) (reg : Bool) :
    LRU K V × Except Exn (iterator × Bool) :=
  c.try_emplace_rv c.end_ key args reg

/-- Source `erase(const key_type& key)`: returns the container after the call and the count. -/
def erase (c : LRU K V) (key : K) : LRU K V × Nat :=
  match umap_find c.m_index key with
  | none => (c, 0)
  | some index_it =>
    let data_it := index_it.2
    (⟨list_erase c.m_data data_it, umap_erase c.m_index index_it.1⟩, 1)

/-- Source `erase(const const_iterator pos)`: `m_index.erase(pos->first); return m_data.erase(pos);`
Undefined (`none`) when `pos` does not designate a live node. -/
def erase_pos (c : LRU K V) (pos : iterator) : Option (LRU K V × iterator) :=
  match c.deref pos with
  | none => none
  | some n => some (⟨list_erase c.m_data n.id, umap_erase c.m_index n.first⟩, list_next c.m_data n.id)

/-- The loop of `erase(first, last)`: `while (first != last) first = erase(first);`, run for at
most `fuel` iterations. -/
def erase_range_loop : Nat → LRU K V → iterator → iterator → Option (LRU K V × iterator)
  | 0, c, first, last => if first = last then some (c, first) else none
  | fuel + 1, c, first, last =>
    if first = last then some (c, first)
    else
      match c.erase_pos first with
      | none => none
      | some r => erase_range_loop fuel r.1 r.2 last

/-- Source `erase(const_iterator first, const const_iterator last)`: the loop, then
`return first;`.  The operand `first` is a `const_iterator`, while the member is declared to
return `iterator`, to which a `std::list` `const_iterator` does not convert: the result carries
the tag of what the statement hands back.  Every iteration unlinks one node, so `m_data.size()`
iterations are enough whenever the loop is defined. -/
def erase_range (c : LRU K V) (first last : iterator) : Option (LRU K V × ReturnedIter) :=
  match erase_range_loop c.m_data.length c first last with
  | none => none
  | some r => some (r.1, ReturnedIter.of_const_iterator r.2)

/-- Source `splice(const iterator pos, const iterator it)`: `m_data.splice(pos, m_data, it);`
Undefined (`none`) unless `it` designates a live node and `pos` is a valid position. -/
def splice (c : LRU K V) (pos it : iterator) : Option (LRU K V) :=
  match c.deref it with
  | none => none
  | some n => if c.validPos pos then some ⟨list_splice c.m_data pos n.id, c.m_index⟩ else none

/-- Source `bump_front`: `splice(m_data.begin(), it);` -/
def bump_front (c : LRU K V) (it : iterator) : Option (LRU K V) := c.splice c.begin it

/-- Source `bump_back`: `splice(m_data.end(), it);` -/
def bump_back (c : LRU K V) (it : iterator) : Option (LRU K V) := c.splice c.end_ it

/-- Source `count`: `return m_index.count(key);` -/
def count (c : LRU K V) (key : K) : Nat := umap_count c.m_index key

/-- Source `find`: `return (index_it == m_index.end()) ? m_data.end() : index_it->second;` -/
def find (c : LRU K V) (key : K) : iterator :=
  match umap_find c.m_index key with
  | none => c.end_
  | some index_it => some index_it.2

/-- Source `contains`: `return m_index.count(key);` converted to `bool`. -/
def contains (c : LRU K V) (key : K) : Bool := decide (umap_count c.m_index key ≠ 0)

/-- Source `front()`: `return m_data.front();`, undefined on an empty container. -/
def front (c : LRU K V) : Option (Node K V) := c.m_data.head?

/-- Source `back()`: `return m_data.back();`, undefined on an empty container. -/
def back (c : LRU K V) : Option (Node K V) := c.m_data.getLast?

/-- Source `operator[](K&& key)`: the existing entry when the key is found, otherwise
`emplace_back(key, mapped_type())`.  The returned reference to the mapped value is given as the
handle of the node holding it.  The overload taking `const K&` runs the same lookup and the same
`emplace_back`, so both overloads change the container in the same way. -/
def operator_index [Inhabited V] (c : LRU K V) (key : K) (reg : Bool) :
    LRU K V × Except Exn iterator :=
  match umap_find c.m_index key with
  | some index_it => (c, Except.ok (some index_it.2))
  | none =>
    match c.emplace_back key default reg with
    | (c1, Except.ok r) => (c1, Except.ok r.1)
    | (c1, Except.error e) => (c1, Except.error e)

/-- Assignment through a handle, `it->second = v`: the key is `const`, only the value changes. -/
def assign (c : LRU K V) (it : iterator) (v : V) : Option (LRU K V) :=
  match c.deref it with
  | none => none
  | some n =>
    some ⟨c.m_data.map (fun m => if m.id = n.id then { m with second := v } else m), c.m_index⟩

end LRU

/-- The index element that belongs to a node: its key and its address. -/
def entryOf {K V : Type} (n : Node K V) : K × Nat := (n.first, n.id)

/-- The operations a caller can apply to a container, with their arguments. `reg` is the outcome
of the index registration inside an insertion (`false`: `m_index.emplace` throws). -/
inductive Op (K V : Type) where
  | emplace (pos : iterator) (k : K) (v : V) (reg : Bool)
  | emplace_front (k : K) (v : V) (reg : Bool)
  | emplace_back (k : K) (v : V) (reg : Bool)
  | try_emplace (pos : iterator) (k : K) (v : V) (reg : Bool)
  | try_emplace_front (k : K) (v : V) (reg : Bool)
  | try_emplace_back (k : K) (v : V) (reg : Bool)
  | try_emplace_rv (pos : iterator) (k : K) (v : V) (reg : Bool)
  | try_emplace_front_rv (k : K) (v : V) (reg : Bool)
  | try_emplace_back_rv (k : K) (v : V) (reg : Bool)
  | operator_index (k : K) (reg : Bool)
  | erase (k : K)
  | erase_pos (pos : iterator)
  | erase_range (first last : iterator)
  | splice (pos it : iterator)
  | bump_front (it : iterator)
  | bump_back (it : iterator)
  | clear
  | assign (it : iterator) (v : V)

namespace LRU

variable {K V : Type} [DecidableEq K]

/-- The three structural invariants of the data model: the key index holds, in some order, exactly
one element `(key, address)` per node of the sequence; no two nodes share a key; no two nodes
share an address. -/
structure Consistent (c : LRU K V) : Prop where
  index_perm : c.m_index.Perm (c.m_data.map entryOf)
  keys_nodup : (c.m_data.map Node.first).Nodup
  ids_nodup : (c.m_data.map Node.id).Nodup

/-- The container after one operation; `none` when the call is outside the C++ precondition
(an insertion position or handle that does not belong to the container). -/
def step [Inhabited V] (c : LRU K V) : Op K V → Option (LRU K V)
  | Op.emplace pos k v reg => if c.validPos pos then some (c.emplace pos k v reg).1 else none
  | Op.emplace_front k v reg => some (c.emplace_front k v reg).1
  | Op.emplace_back k v reg => some (c.emplace_back k v reg).1
  | Op.try_emplace pos k v reg => if c.validPos pos then some (c.try_emplace pos k v reg).1 else none
  | Op.try_emplace_front k v reg => some (c.try_emplace_front k v reg).1
  | Op.try_emplace_back k v reg => some (c.try_emplace_back k v reg).1
  | Op.try_emplace_rv pos k v reg =>
    if c.validPos pos then some (c.try_emplace_rv pos k v reg).1 else none
  | Op.try_emplace_front_rv k v reg => some (c.try_emplace_front_rv k v reg).1
  | Op.try_emplace_back_rv k v reg => some (c.try_emplace_back_rv k v reg).1
  | Op.operator_index k reg => some (c.operator_index k reg).1
  | Op.erase k => some (c.erase k).1
  | Op.erase_pos pos => (c.erase_pos pos).map Prod.fst
  | Op.erase_range first last => (c.erase_range first last).map Prod.fst
  | Op.splice pos it => c.splice pos it
  | Op.bump_front it => c.bump_front it
  | Op.bump_back it => c.bump_back it
  | Op.clear => some c.clear
  | Op.assign it v => c.assign it v

/-- The containers that arise from the default-constructed one by finitely many operations. -/
inductive Reachable [Inhabited V] : LRU K V → Prop where
  | init : Reachable LRU.init
  | step (c c1 : LRU K V) (op : Op K V) : Reachable c → c.step op = some c1 → Reachable c1

end LRU

/-- A two-entry container, the result of `emplace_back(1, 10)` followed by `emplace_front(2, 20)`
on an empty container: `(2, 20)` at the front, `(1, 10)` at the back. -/
def sampleLRU : LRU Nat Nat := ⟨[⟨2, 2, 20⟩, ⟨1, 1, 10⟩], [(2, 2), (1, 1)]⟩

section LookupFamily

variable {K V : Type} [DecidableEq K]

/-- Model of `std::unordered_map::at`: the mapped list iterator of the element with key `k`;
`std::out_of_range` is thrown when there is none. -/
def umap_at (idx : List (K × Nat)) (k : K) : Except Exn Nat :=
  match umap_find idx k with
  | none => Except.error Exn.out_of_range
  | some e => Except.ok e.2

/-- Source `at(const K& key)` (both the const and the non-const member):
`return m_index.at(key)->second;`  The container after the call is returned with the result.
Undefined (`none`) when the iterator stored in the index does not designate a live node. -/
def LRU.at_ (c : LRU K V) (key : K) : Option (LRU K V × Except Exn V) :=
  match umap_at c.m_index key with
  | Except.error e => some (c, Except.error e)
  | Except.ok it =>
    match c.deref (some it) with
    | none => none
    | some n => some (c, Except.ok n.second)

/-- What the operand of a `return` statement in `operator[]` denotes: the list iterator kept in an
index element (`index_it->second`), or the mapped value inside the node an iterator designates
(`it->second` for a list iterator `it`). -/
inductive Returned where
  | stored_iterator (it : iterator)
  | mapped_value (it : iterator)
deriving DecidableEq

/-- Source `operator[](const K& key)`, statement by statement: `return index_it->second;` when the
key is found (the operand is the iterator stored in the index), otherwise
`return emplace_back(key, mapped_type()).first->second;`. -/
def LRU.operator_index_lv [Inhabited V] (c : LRU K V) (key : K) (reg : Bool) :
    LRU K V × Except Exn Returned :=
  match umap_find c.m_index key with
  | some index_it => (c, Except.ok (Returned.stored_iterator (some index_it.2)))
  | none =>
    match c.emplace_back key default reg with
    | (c1, Except.ok r) => (c1, Except.ok (Returned.mapped_value r.1))
    | (c1, Except.error e) => (c1, Except.error e)

/-- Source `operator[](K&& key)`, statement by statement: `return index_it->second->second;` when
the key is found, otherwise `return emplace_back(key, mapped_type()).first->second;`. -/
def LRU.operator_index_rv [Inhabited V] (c : LRU K V) (key : K) (reg : Bool) :
    LRU K V × Except Exn Returned :=
  match umap_find c.m_index key with
  | some index_it => (c, Except.ok (Returned.mapped_value (some index_it.2)))
  | none =>
    match c.emplace_back key default reg with
    | (c1, Except.ok r) => (c1, Except.ok (Returned.mapped_value r.1))
    | (c1, Except.error e) => (c1, Except.error e)

/-- The operations that leave the entry `e` of `c` in the container: every operation except
`erase` of the key of `e`, `erase` of its handle, `erase` of a range `[first, last)` that holds
`e`, and `clear()`.  An assignment through the handle of `e` itself is left out as well: it is the
caller writing the value, not an operation of the container. -/
def Op.spares (c : LRU K V) (e : Node K V) : Op K V → Prop
  | Op.erase k => k ≠ e.first
  | Op.erase_pos pos => pos ≠ some e.id
  | Op.erase_range first last =>
    ∃ pre mid post : List (Node K V), c.m_data = pre ++ (mid ++ post) ∧
      first = (mid ++ post).head?.map Node.id ∧ last = post.head?.map Node.id ∧ e ∉ mid
  | Op.clear => False
  | Op.assign it _ => it ≠ some e.id
  | _ => True

end LookupFamily

section ExampleMain

/-- The two reference types a member can be declared to return for a mapped value:
`mapped_type&` and `const mapped_type&`. -/
inductive RefKind where
  | mapped_ref
  | const_mapped_ref
deriving DecidableEq

/-- The declared return type of `operator[](const K&)`: `mapped_type&` (`lru.hpp` lines 76 and
328). -/
def LRU.operator_index_lv_kind : RefKind := RefKind.mapped_ref

/-- The declared return type of `operator[](K&&)`: `const mapped_type&` (`lru.hpp` lines 78 and
338). -/
def LRU.operator_index_rv_kind : RefKind := RefKind.const_mapped_ref

/-- The statement `ref = v`, `ref` being the result of `operator[]`: a reference of the given kind
to the mapped value of the node `it`.  Through a `mapped_type&` it is the write `LRU.assign`;
through a `const mapped_type&` the statement is ill-formed and there is nothing to run
(`none`). -/
def LRU.assign_through {K V : Type} (kind : RefKind) (c : LRU K V) (it : iterator) (v : V) :
    Option (LRU K V) :=
  match kind with
  | RefKind.mapped_ref => c.assign it v
  | RefKind.const_mapped_ref => none

/-- The first part of `main` in `example.cpp`: the five insertions into an empty
`LRU<int, std::string>`, for a given kind of the reference `container[3]` yields.
`container[3] = "3"` is `operator[]` followed by an assignment through the returned reference; the
integer literals select the `key_type&&` overloads. -/
def example_main_inserted_with (kind : RefKind) : Option (LRU Int String) :=
  let c1 := ((LRU.init : LRU Int String).emplace_front 1 "1" true).1
  let c2 := (c1.emplace_back 2 "2" true).1
  match c2.operator_index 3 true with
  | (c3, Except.ok ref) =>
    (c3.assign_through kind ref "3").map (fun c4 =>
      let c5 := (c4.try_emplace_front_rv 4 "4" true).1
      (c5.try_emplace_back_rv 5 "5" true).1)
  | (_, Except.error _) => none

/-- The second part of `main`: `it = container.find(2); it->second = "22";
container.bump_back(it);` (`it` is an `iterator`, so this write is well-formed). -/
def example_main_bumped_with (kind : RefKind) : Option (LRU Int String) :=
  (example_main_inserted_with kind).bind (fun c =>
    (c.assign (c.find 2) "22").bind (fun c6 => c6.bump_back (c.find 2)))

/-- The first part of `main` as `example.cpp` and `lru.hpp` have it: the literal `3` is an rvalue,
so `container[3]` is `operator[](K&&)`, whose result is a `const mapped_type&`. -/
def example_main_inserted : Option (LRU Int String) :=
  example_main_inserted_with LRU.operator_index_rv_kind

/-- The second part of `main` as `example.cpp` and `lru.hpp` have it. -/
def example_main_bumped : Option (LRU Int String) :=
  example_main_bumped_with LRU.operator_index_rv_kind

end ExampleMain

/-! ## The list and map primitives -/

section Primitives

variable {K V : Type}

theorem le_foldr_max (l : List Nat) (a : Nat) (h : a ∈ l) : a ≤ l.foldr max 0 := by
  induction l with
  | nil => cases h
  | cons b l ih =>
    simp only [List.foldr_cons]
    rcases List.mem_cons.mp h with h1 | h1
    · subst h1; exact le_max_left _ _
    · exact le_trans (ih h1) (le_max_right _ _)

theorem freshId_not_mem (l : List (Node K V)) : freshId l ∉ l.map Node.id := by
  intro h
  have := le_foldr_max _ _ h
  unfold freshId at this
  omega

theorem list_emplace_perm (l : List (Node K V)) (pos : iterator) (x : Node K V) :
    (list_emplace l pos x).Perm (x :: l) := by
  unfold list_emplace
  refine List.perm_middle.trans ?_
  rw [List.takeWhile_append_dropWhile]

theorem list_erase_emplace (l : List (Node K V)) (pos : iterator) (x : Node K V)
    (hx : x.id ∉ l.map Node.id) : list_erase (list_emplace l pos x) x.id = l := by
  unfold list_erase list_emplace
  rw [List.eraseP_append_right, List.eraseP_cons_of_pos (by simp), List.takeWhile_append_dropWhile]
  intro b hb
  have hb1 : b ∈ l := (List.takeWhile_sublist _).subset hb
  have : b.id ≠ x.id := fun e => hx (e ▸ List.mem_map_of_mem _ hb1)
  simpa using this

end Primitives

/-! ## Preservation of the invariants -/

section Invariants

variable {K V : Type} [DecidableEq K]

theorem eraseP_congr_mem {α : Type} (p q : α → Bool) (l : List α) (h : ∀ a ∈ l, p a = q a) :
    l.eraseP p = l.eraseP q := by
  induction l with
  | nil => rfl
  | cons a l ih =>
    have ha : p a = q a := h a (List.mem_cons_self _ _)
    have hl : ∀ b ∈ l, p b = q b := fun b hb => h b (List.mem_cons_of_mem _ hb)
    simp only [List.eraseP_cons, ha, ih hl]

theorem umap_find_none_iff (idx : List (K × Nat)) (k : K) :
    umap_find idx k = none ↔ ∀ e ∈ idx, e.1 ≠ k := by
  simp [umap_find]

theorem umap_find_some_mem {idx : List (K × Nat)} {k : K} {e : K × Nat}
    (h : umap_find idx k = some e) : e ∈ idx ∧ e.1 = k := by
  unfold umap_find at h
  exact ⟨List.mem_of_find?_eq_some h, by simpa using List.find?_some h⟩

theorem umap_find_of_mem {idx : List (K × Nat)} (hnd : (idx.map Prod.fst).Nodup) {e : K × Nat}
    (he : e ∈ idx) : umap_find idx e.1 = some e := by
  induction idx with
  | nil => cases he
  | cons a l ih =>
    rw [List.map_cons, List.nodup_cons] at hnd
    rcases List.mem_cons.mp he with h1 | h1
    · subst h1; simp [umap_find]
    · have hne : a.1 ≠ e.1 := fun hh => hnd.1 (hh ▸ List.mem_map_of_mem _ h1)
      have := ih hnd.2 h1
      unfold umap_find at this ⊢
      rw [List.find?_cons_of_neg _ (by simpa using hne)]
      exact this

namespace LRU

theorem Consistent.index_keys_nodup {c : LRU K V} (h : c.Consistent) :
    (c.m_index.map Prod.fst).Nodup := by
  have hp := h.index_perm.map Prod.fst
  rw [List.map_map] at hp
  exact hp.nodup_iff.mpr h.keys_nodup

theorem Consistent.find_node {c : LRU K V} (h : c.Consistent) {n : Node K V} (hn : n ∈ c.m_data) :
    umap_find c.m_index n.first = some (n.first, n.id) := by
  have hmem : entryOf n ∈ c.m_index := h.index_perm.mem_iff.mpr (List.mem_map_of_mem _ hn)
  exact umap_find_of_mem h.index_keys_nodup hmem

theorem Consistent.find_absent {c : LRU K V} (h : c.Consistent) {k : K}
    (hk : ∀ n ∈ c.m_data, n.first ≠ k) : umap_find c.m_index k = none := by
  rw [umap_find_none_iff]
  intro e he
  obtain ⟨n, hn, rfl⟩ := List.mem_map.mp (h.index_perm.mem_iff.mp he)
  exact hk n hn

theorem Consistent.find_some {c : LRU K V} (h : c.Consistent) {k : K} {e : K × Nat}
    (he : umap_find c.m_index k = some e) : ∃ n ∈ c.m_data, n.first = k ∧ e = (n.first, n.id) := by
  obtain ⟨hm, hk⟩ := umap_find_some_mem he
  obtain ⟨n, hn, rfl⟩ := List.mem_map.mp (h.index_perm.mem_iff.mp hm)
  exact ⟨n, hn, hk, rfl⟩

theorem Consistent.find_none_absent {c : LRU K V} (h : c.Consistent) {k : K}
    (he : umap_find c.m_index k = none) : k ∉ c.m_data.map Node.first := by
  intro hk
  obtain ⟨n, hn, rfl⟩ := List.mem_map.mp hk
  rw [h.find_node hn] at he
  cases he

theorem Consistent.init : (LRU.init : LRU K V).Consistent :=
  ⟨List.Perm.refl _, List.nodup_nil, List.nodup_nil⟩

theorem Consistent.insert {c : LRU K V} (h : c.Consistent) (pos : iterator) (x : Node K V)
    (hk : x.first ∉ c.m_data.map Node.first) (hi : x.id ∉ c.m_data.map Node.id) :
    Consistent ⟨list_emplace c.m_data pos x, (x.first, x.id) :: c.m_index⟩ := by
  have hp := list_emplace_perm c.m_data pos x
  refine ⟨?_, ?_, ?_⟩
  · exact ((h.index_perm.cons (entryOf x)).trans (hp.map entryOf).symm)
  · exact (hp.map Node.first).nodup_iff.mpr (List.nodup_cons.mpr ⟨hk, h.keys_nodup⟩)
  · exact (hp.map Node.id).nodup_iff.mpr (List.nodup_cons.mpr ⟨hi, h.ids_nodup⟩)

theorem Consistent.first_eq_iff {c : LRU K V} (h : c.Consistent) {n m : Node K V}
    (hn : n ∈ c.m_data) (hm : m ∈ c.m_data) : m.first = n.first ↔ m.id = n.id := by
  constructor
  · intro e; rw [List.inj_on_of_nodup_map h.keys_nodup hm hn e]
  · intro e; rw [List.inj_on_of_nodup_map h.ids_nodup hm hn e]

theorem Consistent.remove {c : LRU K V} (h : c.Consistent) {n : Node K V} (hn : n ∈ c.m_data) :
    Consistent ⟨list_erase c.m_data n.id, umap_erase c.m_index n.first⟩ := by
  refine ⟨?_, ?_, ?_⟩
  · show (umap_erase c.m_index n.first).Perm ((list_erase c.m_data n.id).map entryOf)
    unfold umap_erase list_erase
    have hpw : c.m_index.Pairwise
        (fun a b => decide (a.1 = n.first) = true → decide (b.1 = n.first) = true → False) := by
      have := List.pairwise_map.mp h.index_keys_nodup
      refine this.imp ?_
      intro a b hab ha hb
      exact hab ((of_decide_eq_true ha).trans (of_decide_eq_true hb).symm)
    refine (List.Perm.eraseP _ hpw h.index_perm).trans ?_
    rw [List.eraseP_map]
    rw [eraseP_congr_mem _ (fun m => decide (m.id = n.id)) c.m_data]
    intro m hm
    have := h.first_eq_iff hn hm
    simp only [Function.comp, entryOf]
    exact decide_eq_decide.mpr this
  · exact ((List.eraseP_sublist _).map Node.first).nodup h.keys_nodup
  · exact ((List.eraseP_sublist _).map Node.id).nodup h.ids_nodup

end LRU

end Invariants

/-! ## What each insertion and removal does, spelled out -/

section Operations

variable {K V : Type} [DecidableEq K]

namespace LRU

theorem emplace_of_found (c : LRU K V) (pos : iterator) (k : K) (v : V) (reg : Bool)
    {e : K × Nat} (he : umap_find c.m_index k = some e) :
    c.emplace pos k v reg = (c, Except.ok (some e.2, false)) := by
  unfold emplace
  simp only [he]
  rw [list_erase_emplace _ _ _ (freshId_not_mem c.m_data)]

theorem emplace_of_absent_ok (c : LRU K V) (pos : iterator) (k : K) (v : V)
    (he : umap_find c.m_index k = none) :
    c.emplace pos k v true =
      (⟨list_emplace c.m_data pos ⟨freshId c.m_data, k, v⟩, (k, freshId c.m_data) :: c.m_index⟩,
        Except.ok (some (freshId c.m_data), true)) := by
  unfold emplace
  simp only [he, umap_emplace, if_true]

theorem emplace_of_absent_throw (c : LRU K V) (pos : iterator) (k : K) (v : V)
    (he : umap_find c.m_index k = none) :
    c.emplace pos k v false = (c, Except.error Exn.bad_alloc) := by
  unfold emplace
  simp only [he, umap_emplace]
  rw [list_erase_emplace _ _ _ (freshId_not_mem c.m_data)]
  rfl

theorem try_emplace_eq_emplace (c : LRU K V) (pos : iterator) (k : K) (v : V) (reg : Bool) :
    c.try_emplace pos k v reg = c.emplace pos k v reg := by
  cases he : umap_find c.m_index k with
  | some e =>
    rw [emplace_of_found c pos k v reg he]
    unfold try_emplace
    simp only [he]
  | none =>
    unfold try_emplace emplace
    simp only [he]

theorem try_emplace_rv_eq (c : LRU K V) (pos : iterator) (k : K) (v : V) (reg : Bool) :
    c.try_emplace_rv pos k v reg = c.try_emplace pos k v reg := rfl

theorem emplace_consistent {c : LRU K V} (h : c.Consistent) (pos : iterator) (k : K) (v : V)
    (reg : Bool) : (c.emplace pos k v reg).1.Consistent := by
  cases he : umap_find c.m_index k with
  | some e => rw [emplace_of_found c pos k v reg he]; exact h
  | none =>
    cases reg with
    | false => rw [emplace_of_absent_throw c pos k v he]; exact h
    | true =>
      rw [emplace_of_absent_ok c pos k v he]
      exact h.insert pos ⟨freshId c.m_data, k, v⟩ (h.find_none_absent he) (freshId_not_mem _)

theorem deref_some_mem {c : LRU K V} {it : iterator} {n : Node K V} (h : c.deref it = some n) :
    n ∈ c.m_data ∧ it = some n.id := by
  unfold deref list_deref at h
  cases it with
  | none => cases h
  | some i =>
    refine ⟨List.mem_of_find?_eq_some h, ?_⟩
    have := List.find?_some h
    simp only [decide_eq_true_eq] at this
    rw [this]

theorem erase_consistent {c : LRU K V} (h : c.Consistent) (k : K) : (c.erase k).1.Consistent := by
  unfold erase
  cases he : umap_find c.m_index k with
  | none => exact h
  | some e =>
    obtain ⟨n, hn, _, rfl⟩ := h.find_some he
    exact h.remove hn

theorem erase_pos_consistent {c : LRU K V} (h : c.Consistent) {pos : iterator}
    {r : LRU K V × iterator} (hr : c.erase_pos pos = some r) : r.1.Consistent := by
  unfold erase_pos at hr
  cases hd : c.deref pos with
  | none => rw [hd] at hr; cases hr
  | some n =>
    rw [hd] at hr
    cases hr
    exact h.remove (deref_some_mem hd).1

theorem erase_range_state (c : LRU K V) (first last : iterator) :
    (c.erase_range first last).map Prod.fst
      = (erase_range_loop c.m_data.length c first last).map Prod.fst := by
  unfold erase_range
  cases erase_range_loop c.m_data.length c first last with
  | none => rfl
  | some r => rfl

theorem erase_range_loop_consistent (fuel : Nat) {c : LRU K V} (h : c.Consistent)
    {first last : iterator} {r : LRU K V × iterator}
    (hr : erase_range_loop fuel c first last = some r) : r.1.Consistent := by
  induction fuel generalizing c first with
  | zero =>
    unfold erase_range_loop at hr
    split at hr
    · cases hr; exact h
    · cases hr
  | succ fuel ih =>
    unfold erase_range_loop at hr
    split at hr
    · cases hr; exact h
    · cases hp : c.erase_pos first with
      | none => rw [hp] at hr; cases hr
      | some q =>
        rw [hp] at hr
        exact ih (erase_pos_consistent h hp) hr

theorem perm_cons_eraseP_of_find {α : Type} (p : α → Bool) {l : List α} {a : α}
    (h : l.find? p = some a) : l.Perm (a :: l.eraseP p) := by
  induction l with
  | nil => cases h
  | cons b l ih =>
    by_cases hb : p b = true
    · rw [List.find?_cons_of_pos _ hb] at h
      cases h
      rw [List.eraseP_cons_of_pos hb]
    · rw [List.find?_cons_of_neg _ hb] at h
      rw [List.eraseP_cons_of_neg hb]
      exact ((ih h).cons b).trans (List.Perm.swap _ _ _)

theorem list_splice_perm (l : List (Node K V)) (pos : iterator) (i : Nat) :
    (list_splice l pos i).Perm l := by
  unfold list_splice
  split
  · exact List.Perm.refl _
  · cases hd : list_deref l (some i) with
    | none => exact List.Perm.refl _
    | some n =>
      simp only
      refine (list_emplace_perm _ _ _).trans ?_
      exact (perm_cons_eraseP_of_find _ hd).symm

theorem Consistent.of_perm {c : LRU K V} (h : c.Consistent) {l : List (Node K V)}
    (hp : l.Perm c.m_data) : Consistent ⟨l, c.m_index⟩ :=
  ⟨h.index_perm.trans (hp.map entryOf).symm, (hp.map Node.first).nodup_iff.mpr h.keys_nodup,
    (hp.map Node.id).nodup_iff.mpr h.ids_nodup⟩

theorem splice_consistent {c : LRU K V} (h : c.Consistent) {pos it : iterator} {c1 : LRU K V}
    (hs : c.splice pos it = some c1) : c1.Consistent := by
  unfold splice at hs
  cases hd : c.deref it with
  | none => rw [hd] at hs; cases hs
  | some n =>
    rw [hd] at hs
    simp only at hs
    split at hs
    · cases hs
      exact h.of_perm (list_splice_perm _ _ _)
    · cases hs

theorem assign_consistent {c : LRU K V} (h : c.Consistent) {it : iterator} {v : V} {c1 : LRU K V}
    (hs : c.assign it v = some c1) : c1.Consistent := by
  unfold assign at hs
  cases hd : c.deref it with
  | none => rw [hd] at hs; cases hs
  | some n =>
    rw [hd] at hs
    cases hs
    have e1 : ∀ l : List (Node K V),
        (l.map (fun m => if m.id = n.id then { m with second := v } else m)).map entryOf
          = l.map entryOf := by
      intro l
      rw [List.map_map]
      refine List.map_congr_left ?_
      intro m _
      simp only [Function.comp]
      split <;> rfl
    have e2 : ∀ l : List (Node K V),
        (l.map (fun m => if m.id = n.id then { m with second := v } else m)).map Node.first
          = l.map Node.first := by
      intro l
      rw [List.map_map]
      refine List.map_congr_left ?_
      intro m _
      simp only [Function.comp]
      split <;> rfl
    have e3 : ∀ l : List (Node K V),
        (l.map (fun m => if m.id = n.id then { m with second := v } else m)).map Node.id
          = l.map Node.id := by
      intro l
      rw [List.map_map]
      refine List.map_congr_left ?_
      intro m _
      simp only [Function.comp]
      split <;> rfl
    refine ⟨?_, ?_, ?_⟩
    · show c.m_index.Perm _
      rw [e1]; exact h.index_perm
    · show List.Nodup (List.map Node.first _)
      rw [e2]; exact h.keys_nodup
    · show List.Nodup (List.map Node.id _)
      rw [e3]; exact h.ids_nodup

theorem operator_index_consistent [Inhabited V] {c : LRU K V} (h : c.Consistent) (k : K)
    (reg : Bool) : (c.operator_index k reg).1.Consistent := by
  unfold operator_index
  cases he : umap_find c.m_index k with
  | some e => exact h
  | none =>
    have hc := emplace_consistent h c.end_ k (default : V) reg
    simp only [emplace_back]
    rcases hq : c.emplace c.end_ k (default : V) reg with ⟨c1, r⟩
    rw [hq] at hc
    cases r with
    | ok r => exact hc
    | error e => exact hc

theorem step_consistent [Inhabited V] {c c1 : LRU K V} (h : c.Consistent) (op : Op K V)
    (hs : c.step op = some c1) : c1.Consistent := by
  cases op with
  | emplace pos k v reg =>
    simp only [step] at hs
    split at hs
    · cases hs; exact emplace_consistent h _ _ _ _
    · cases hs
  | emplace_front k v reg => cases hs; exact emplace_consistent h _ _ _ _
  | emplace_back k v reg => cases hs; exact emplace_consistent h _ _ _ _
  | try_emplace pos k v reg =>
    simp only [step] at hs
    split at hs
    · cases hs; rw [try_emplace_eq_emplace]; exact emplace_consistent h _ _ _ _
    · cases hs
  | try_emplace_front k v reg =>
    cases hs
    show (c.try_emplace c.begin k v reg).1.Consistent
    rw [try_emplace_eq_emplace]; exact emplace_consistent h _ _ _ _
  | try_emplace_back k v reg =>
    cases hs
    show (c.try_emplace c.end_ k v reg).1.Consistent
    rw [try_emplace_eq_emplace]; exact emplace_consistent h _ _ _ _
  | try_emplace_rv pos k v reg =>
    simp only [step] at hs
    split at hs
    · cases hs; rw [try_emplace_rv_eq, try_emplace_eq_emplace]; exact emplace_consistent h _ _ _ _
    · cases hs
  | try_emplace_front_rv k v reg =>
    cases hs
    show (c.try_emplace_rv c.begin k v reg).1.Consistent
    rw [try_emplace_rv_eq, try_emplace_eq_emplace]; exact emplace_consistent h _ _ _ _
  | try_emplace_back_rv k v reg =>
    cases hs
    show (c.try_emplace_rv c.end_ k v reg).1.Consistent
    rw [try_emplace_rv_eq, try_emplace_eq_emplace]; exact emplace_consistent h _ _ _ _
  | operator_index k reg => cases hs; exact operator_index_consistent h _ _
  | erase k => cases hs; exact erase_consistent h _
  | erase_pos pos =>
    simp only [step, Option.map_eq_some'] at hs
    obtain ⟨r, hr, rfl⟩ := hs
    exact erase_pos_consistent h hr
  | erase_range first last =>
    simp only [step, erase_range_state, Option.map_eq_some'] at hs
    obtain ⟨r, hr, rfl⟩ := hs
    exact erase_range_loop_consistent _ h hr
  | splice pos it => exact splice_consistent h hs
  | bump_front it => exact splice_consistent h hs
  | bump_back it => exact splice_consistent h hs
  | clear => cases hs; exact Consistent.init
  | assign it v => exact assign_consistent h hs

theorem Reachable.consistent [Inhabited V] {c : LRU K V} (h : c.Reachable) : c.Consistent := by
  induction h with
  | init => exact Consistent.init
  | step c c1 op _ hs ih => exact step_consistent ih op hs

end LRU

end Operations

/-! ## Lookup in a consistent container -/

section Lookup

variable {K V : Type} [DecidableEq K]

namespace LRU

theorem Consistent.deref_of_mem {c : LRU K V} (h : c.Consistent) {n : Node K V}
    (hn : n ∈ c.m_data) : c.deref (some n.id) = some n := by
  unfold deref list_deref
  have key : ∀ l : List (Node K V), (l.map Node.id).Nodup → n ∈ l →
      l.find? (fun m => decide (m.id = n.id)) = some n := by
    intro l
    induction l with
    | nil => intro _ hm; cases hm
    | cons a l ih =>
      intro hnd hm
      rw [List.map_cons, List.nodup_cons] at hnd
      rcases List.mem_cons.mp hm with h1 | h1
      · subst h1; simp
      · have hne : a.id ≠ n.id := fun e => hnd.1 (e ▸ List.mem_map_of_mem _ h1)
        rw [List.find?_cons_of_neg _ (by simpa using hne)]
        exact ih hnd.2 h1
  exact key _ h.ids_nodup hn

theorem Consistent.size_eq {c : LRU K V} (h : c.Consistent) : c.size = c.m_data.length := by
  unfold size
  rw [h.index_perm.length_eq, List.length_map]

theorem Consistent.count_eq {c : LRU K V} (h : c.Consistent) (k : K) :
    c.count k = (c.m_data.map Node.first).count k := by
  unfold count umap_count
  rw [h.index_perm.countP_eq, List.countP_map, List.count, List.countP_map]
  refine List.countP_congr ?_
  intro m _
  simp [entryOf]

theorem Consistent.find_of_mem {c : LRU K V} (h : c.Consistent) {n : Node K V}
    (hn : n ∈ c.m_data) : c.find n.first = some n.id := by
  unfold find
  rw [h.find_node hn]

theorem Consistent.find_of_absent {c : LRU K V} (h : c.Consistent) {k : K}
    (hk : ∀ n ∈ c.m_data, n.first ≠ k) : c.find k = none := by
  unfold find
  rw [h.find_absent hk]
  rfl

end LRU

end Lookup

/-! ## Positions in the sequence -/

section Positions

variable {K V : Type} [DecidableEq K]

theorem head_dropWhile_of_validPos (c : LRU K V) (pos : iterator) (hv : c.validPos pos = true) :
    ((c.m_data.dropWhile (fun n => decide (some n.id ≠ pos))).head?).map Node.id = pos := by
  cases pos with
  | none =>
    have : c.m_data.dropWhile (fun n => decide (some n.id ≠ (none : iterator))) = [] := by
      rw [List.dropWhile_eq_nil_iff]
      intro x _
      simp
    rw [this]; rfl
  | some i =>
    unfold LRU.validPos LRU.deref list_deref at hv
    simp only at hv
    generalize c.m_data = l at hv
    induction l with
    | nil => simp at hv
    | cons a l ih =>
      by_cases ha : a.id = i
      · rw [List.dropWhile_cons_of_neg (by simp [ha])]
        simp [ha]
      · rw [List.dropWhile_cons_of_pos (by simpa using ha)]
        rw [List.find?_cons_of_neg _ (by simpa using ha)] at hv
        exact ih hv

theorem list_emplace_begin (l : List (Node K V)) (x : Node K V) :
    list_emplace l (l.head?.map Node.id) x = x :: l := by
  unfold list_emplace
  cases l with
  | nil => rfl
  | cons a t =>
    have hp : (fun n : Node K V => decide (some n.id ≠ Option.map Node.id (a :: t).head?)) a
        = false := by simp
    rw [List.takeWhile_cons_of_neg (by simp), List.dropWhile_cons_of_neg (by simp)]
    rfl

theorem list_emplace_end (l : List (Node K V)) (x : Node K V) :
    list_emplace l none x = l ++ [x] := by
  unfold list_emplace
  have h1 : l.takeWhile (fun n => decide (some n.id ≠ (none : iterator))) = l := by
    rw [List.takeWhile_eq_self_iff]; intro a _; simp
  have h2 : l.dropWhile (fun n => decide (some n.id ≠ (none : iterator))) = [] := by
    rw [List.dropWhile_eq_nil_iff]; intro a _; simp
  rw [h1, h2]

theorem list_deref_emplace_new (l : List (Node K V)) (pos : iterator) (x : Node K V)
    (hx : x.id ∉ l.map Node.id) : list_deref (list_emplace l pos x) (some x.id) = some x := by
  unfold list_deref list_emplace
  simp only
  rw [List.find?_append]
  have : (l.takeWhile (fun n => decide (some n.id ≠ pos))).find? (fun n => decide (n.id = x.id))
      = none := by
    rw [List.find?_eq_none]
    intro b hb
    have hb1 : b ∈ l := (List.takeWhile_sublist _).subset hb
    have : b.id ≠ x.id := fun e => hx (e ▸ List.mem_map_of_mem _ hb1)
    simpa using this
  rw [this]
  simp

theorem list_erase_split {l : List (Node K V)} (hnd : (l.map Node.id).Nodup) {n : Node K V}
    (hn : n ∈ l) : ∃ pre post, l = pre ++ n :: post ∧ list_erase l n.id = pre ++ post := by
  unfold list_erase
  obtain ⟨a, l1, l2, _, pa, hl, he⟩ :=
    List.exists_of_eraseP (p := fun m : Node K V => decide (m.id = n.id)) hn (by simp)
  have ha : a ∈ l := by rw [hl]; simp
  have : a = n := List.inj_on_of_nodup_map hnd ha hn (by simpa using pa)
  subst this
  exact ⟨l1, l2, hl, he⟩

end Positions

/-! ## Removal by key -/

section RemovalByKey

variable {K V : Type} [DecidableEq K]

namespace LRU

theorem erase_of_absent (c : LRU K V) {k : K} (he : umap_find c.m_index k = none) :
    c.erase k = (c, 0) := by
  unfold erase
  simp only [he]

theorem Consistent.erase_of_mem {c : LRU K V} (h : c.Consistent) {n : Node K V}
    (hn : n ∈ c.m_data) :
    c.erase n.first = (⟨list_erase c.m_data n.id, umap_erase c.m_index n.first⟩, 1) := by
  unfold erase
  simp only [h.find_node hn]

theorem Consistent.key_gone {c : LRU K V} (h : c.Consistent) {n : Node K V} (hn : n ∈ c.m_data) :
    ∀ m ∈ list_erase c.m_data n.id, m.first ≠ n.first := by
  obtain ⟨pre, post, hl, he⟩ := list_erase_split h.ids_nodup hn
  have hk := h.keys_nodup
  rw [hl] at hk
  have hk2 : (n.first :: (pre ++ post).map Node.first).Nodup :=
    ((List.perm_middle : (pre ++ n :: post).Perm (n :: (pre ++ post))).map Node.first).nodup_iff.mp hk
  rw [he]
  intro m hm e
  exact (List.nodup_cons.mp hk2).1 (e ▸ List.mem_map_of_mem _ hm)

theorem Consistent.erase_key_absent {c : LRU K V} (h : c.Consistent) (k : K) :
    ∀ m ∈ (c.erase k).1.m_data, m.first ≠ k := by
  cases he : umap_find c.m_index k with
  | none =>
    rw [erase_of_absent c he]
    intro m hm e
    exact h.find_none_absent he (e ▸ List.mem_map_of_mem _ hm)
  | some e =>
    obtain ⟨n, hn, rfl, _⟩ := h.find_some he
    rw [h.erase_of_mem hn]
    exact h.key_gone hn

end LRU

end RemovalByKey

/-! ## The sample container -/

theorem sampleLRU_consistent : sampleLRU.Consistent :=
  ⟨List.Perm.refl _, by decide, by decide⟩

theorem sampleLRU_reachable : sampleLRU.Reachable :=
  LRU.Reachable.step _ _ (Op.emplace_front 2 20 true)
    (LRU.Reachable.step _ _ (Op.emplace_back 1 10 true) LRU.Reachable.init rfl) rfl

/-! ## The claims -/

section Claims

variable {K V : Type} [DecidableEq K]

/-- C1: in every container reachable from the default-constructed one by finitely many public
operations, `size()` (read from the key index) equals the number of entries of the ordered
sequence, and `empty()` holds exactly when the sequence has no entries. -/
theorem C1_size_matches_sequence [Inhabited V] (c : LRU K V) (h : c.Reachable) :
    c.size = c.m_data.length ∧ (c.empty = true ↔ c.m_data = []) := by
  have hs := h.consistent.size_eq
  refine ⟨hs, ?_⟩
  unfold LRU.size at hs
  unfold LRU.empty
  rw [List.isEmpty_iff, ← List.length_eq_zero, hs, List.length_eq_zero]

theorem C1_size_matches_sequence_witness :
    sampleLRU.Reachable ∧
      (sampleLRU.size = sampleLRU.m_data.length ∧ (sampleLRU.empty = true ↔ sampleLRU.m_data = [])) :=
  ⟨sampleLRU_reachable, C1_size_matches_sequence sampleLRU sampleLRU_reachable⟩

/-- C2: in every container reachable from the default-constructed one by finitely many public
operations, no two entries of the ordered sequence have equal keys. -/
theorem C2_keys_pairwise_distinct [Inhabited V] (c : LRU K V) (h : c.Reachable) :
    c.m_data.Pairwise (fun a b => a.first ≠ b.first) :=
  List.pairwise_map.mp h.consistent.keys_nodup

theorem C2_keys_pairwise_distinct_witness :
    sampleLRU.Reachable ∧ sampleLRU.m_data.Pairwise (fun a b => a.first ≠ b.first) :=
  ⟨sampleLRU_reachable, C2_keys_pairwise_distinct sampleLRU sampleLRU_reachable⟩

/-- C3: in every reachable container and for every key `k`: if an entry of the sequence has key
`k` then `find(k)` is the handle of that entry (it resolves to the entry), `count(k) = 1` and
`contains(k)` is true; if no entry has key `k` then `find(k)` is `end()`, `count(k) = 0` and
`contains(k)` is false. -/
theorem C3_index_covers_present_keys [Inhabited V] (c : LRU K V) (h : c.Reachable) (k : K) :
    (∀ n ∈ c.m_data, n.first = k →
        c.find k = some n.id ∧ c.deref (c.find k) = some n ∧ c.count k = 1 ∧ c.contains k = true) ∧
    ((∀ n ∈ c.m_data, n.first ≠ k) →
        c.find k = c.end_ ∧ c.count k = 0 ∧ c.contains k = false) := by
  have hc := h.consistent
  constructor
  · intro n hn hk
    subst hk
    have hcount : c.count n.first = 1 := by
      rw [hc.count_eq]
      exact List.count_eq_one_of_mem hc.keys_nodup (List.mem_map_of_mem _ hn)
    refine ⟨hc.find_of_mem hn, ?_, hcount, ?_⟩
    · rw [hc.find_of_mem hn]; exact hc.deref_of_mem hn
    · unfold LRU.contains
      unfold LRU.count at hcount
      rw [hcount]; rfl
  · intro hk
    have hcount : c.count k = 0 := by
      rw [hc.count_eq]
      refine List.count_eq_zero_of_not_mem ?_
      intro hm
      obtain ⟨n, hn, e⟩ := List.mem_map.mp hm
      exact hk n hn e
    refine ⟨hc.find_of_absent hk, hcount, ?_⟩
    unfold LRU.contains
    unfold LRU.count at hcount
    rw [hcount]; rfl

theorem C3_index_covers_present_keys_witness :
    sampleLRU.Reachable ∧
      ((∀ n ∈ sampleLRU.m_data, n.first = 1 →
          sampleLRU.find 1 = some n.id ∧ sampleLRU.deref (sampleLRU.find 1) = some n ∧
            sampleLRU.count 1 = 1 ∧ sampleLRU.contains 1 = true) ∧
       ((∀ n ∈ sampleLRU.m_data, n.first ≠ 1) →
          sampleLRU.find 1 = sampleLRU.end_ ∧ sampleLRU.count 1 = 0 ∧
            sampleLRU.contains 1 = false)) :=
  ⟨sampleLRU_reachable, C3_index_covers_present_keys sampleLRU sampleLRU_reachable 1⟩

/-- C4: in a consistent container, for every position and every key `k` already present in an
entry `n0` (holding value `v0 = n0.second`), `emplace(pos, k, v)` returns `(handle of n0, false)`
and the container after the call is the container before it: same sequence in the same order,
same size, and the handle of `n0` still resolves to `n0`, holding `v0`. -/
theorem C4_emplace_present_key_unchanged (c : LRU K V) (h : c.Consistent) (pos : iterator) (k : K)
    (v : V) (reg : Bool) (n0 : Node K V) (hn : n0 ∈ c.m_data) (hk : n0.first = k) :
    (c.emplace pos k v reg).2 = Except.ok (some n0.id, false) ∧
    (c.emplace pos k v reg).1 = c ∧
    (c.emplace pos k v reg).1.m_data = c.m_data ∧
    (c.emplace pos k v reg).1.size = c.size ∧
    (c.emplace pos k v reg).1.deref (some n0.id) = some n0 := by
  subst hk
  rw [LRU.emplace_of_found c pos n0.first v reg (h.find_node hn)]
  exact ⟨rfl, rfl, rfl, rfl, h.deref_of_mem hn⟩

theorem C4_emplace_present_key_unchanged_witness :
    (sampleLRU.emplace (some 2) 1 99 true).2 = Except.ok (some (⟨1, 1, 10⟩ : Node Nat Nat).id, false) ∧
    (sampleLRU.emplace (some 2) 1 99 true).1 = sampleLRU ∧
    (sampleLRU.emplace (some 2) 1 99 true).1.m_data = sampleLRU.m_data ∧
    (sampleLRU.emplace (some 2) 1 99 true).1.size = sampleLRU.size ∧
    (sampleLRU.emplace (some 2) 1 99 true).1.deref (some (⟨1, 1, 10⟩ : Node Nat Nat).id)
      = some ⟨1, 1, 10⟩ :=
  C4_emplace_present_key_unchanged sampleLRU sampleLRU_consistent (some 2) 1 99 true ⟨1, 1, 10⟩
    (by decide) rfl

/-- C5: in a consistent container, for every valid position `pos` (a live handle or `end()`) and
every key `k` that is absent, `emplace(pos, k, v)` with a successful index registration returns
`(h, true)` where `h` resolves to a new entry `(k, v)` placed immediately before `pos`; the
previous entries keep their order and values, and `size()` grows by one.  After `emplace_front`
the new entry is `front()`, after `emplace_back` it is `back()`. -/
theorem C5_emplace_absent_key_inserts (c : LRU K V) (h : c.Consistent) (pos : iterator)
    (hpos : c.validPos pos = true) (k : K) (v : V) (hk : ∀ n ∈ c.m_data, n.first ≠ k) :
    (∃ (nid : Nat) (pre post : List (Node K V)),
      (c.emplace pos k v true).2 = Except.ok (some nid, true) ∧
      nid ∉ c.m_data.map Node.id ∧
      (c.emplace pos k v true).1.deref (some nid) = some ⟨nid, k, v⟩ ∧
      c.m_data = pre ++ post ∧
      (c.emplace pos k v true).1.m_data = pre ++ ⟨nid, k, v⟩ :: post ∧
      post.head?.map Node.id = pos ∧
      (c.emplace pos k v true).1.size = c.size + 1) ∧
    (∃ nid : Nat,
      (c.emplace_front k v true).2 = Except.ok (some nid, true) ∧
      (c.emplace_front k v true).1.m_data = ⟨nid, k, v⟩ :: c.m_data ∧
      (c.emplace_front k v true).1.front = some ⟨nid, k, v⟩ ∧
      (c.emplace_front k v true).1.size = c.size + 1) ∧
    (∃ nid : Nat,
      (c.emplace_back k v true).2 = Except.ok (some nid, true) ∧
      (c.emplace_back k v true).1.m_data = c.m_data ++ [⟨nid, k, v⟩] ∧
      (c.emplace_back k v true).1.back = some ⟨nid, k, v⟩ ∧
      (c.emplace_back k v true).1.size = c.size + 1) := by
  have he := h.find_absent hk
  refine ⟨?_, ?_, ?_⟩
  · refine ⟨freshId c.m_data, c.m_data.takeWhile (fun n => decide (some n.id ≠ pos)),
      c.m_data.dropWhile (fun n => decide (some n.id ≠ pos)), ?_⟩
    rw [LRU.emplace_of_absent_ok c pos k v he]
    refine ⟨rfl, freshId_not_mem _, ?_, (List.takeWhile_append_dropWhile _ _).symm, rfl,
      head_dropWhile_of_validPos c pos hpos, rfl⟩
    exact list_deref_emplace_new c.m_data pos ⟨freshId c.m_data, k, v⟩ (freshId_not_mem _)
  · refine ⟨freshId c.m_data, ?_⟩
    unfold LRU.emplace_front
    rw [LRU.emplace_of_absent_ok c c.begin k v he]
    refine ⟨rfl, ?_, ?_, rfl⟩
    · exact list_emplace_begin c.m_data _
    · unfold LRU.front
      show (list_emplace c.m_data (c.m_data.head?.map Node.id) _).head? = _
      rw [list_emplace_begin]; rfl
  · refine ⟨freshId c.m_data, ?_⟩
    unfold LRU.emplace_back
    rw [LRU.emplace_of_absent_ok c c.end_ k v he]
    refine ⟨rfl, ?_, ?_, rfl⟩
    · exact list_emplace_end c.m_data _
    · unfold LRU.back
      show (list_emplace c.m_data none _).getLast? = _
      rw [list_emplace_end, List.getLast?_concat]

theorem C5_emplace_absent_key_inserts_witness :
    (∃ (nid : Nat) (pre post : List (Node Nat Nat)),
      (sampleLRU.emplace (some 1) 7 70 true).2 = Except.ok (some nid, true) ∧
      nid ∉ sampleLRU.m_data.map Node.id ∧
      (sampleLRU.emplace (some 1) 7 70 true).1.deref (some nid) = some ⟨nid, 7, 70⟩ ∧
      sampleLRU.m_data = pre ++ post ∧
      (sampleLRU.emplace (some 1) 7 70 true).1.m_data = pre ++ ⟨nid, 7, 70⟩ :: post ∧
      post.head?.map Node.id = some 1 ∧
      (sampleLRU.emplace (some 1) 7 70 true).1.size = sampleLRU.size + 1) ∧
    (∃ nid : Nat,
      (sampleLRU.emplace_front 7 70 true).2 = Except.ok (some nid, true) ∧
      (sampleLRU.emplace_front 7 70 true).1.m_data = ⟨nid, 7, 70⟩ :: sampleLRU.m_data ∧
      (sampleLRU.emplace_front 7 70 true).1.front = some ⟨nid, 7, 70⟩ ∧
      (sampleLRU.emplace_front 7 70 true).1.size = sampleLRU.size + 1) ∧
    (∃ nid : Nat,
      (sampleLRU.emplace_back 7 70 true).2 = Except.ok (some nid, true) ∧
      (sampleLRU.emplace_back 7 70 true).1.m_data = sampleLRU.m_data ++ [⟨nid, 7, 70⟩] ∧
      (sampleLRU.emplace_back 7 70 true).1.back = some ⟨nid, 7, 70⟩ ∧
      (sampleLRU.emplace_back 7 70 true).1.size = sampleLRU.size + 1) :=
  C5_emplace_absent_key_inserts sampleLRU sampleLRU_consistent (some 1) rfl 7 70 (by decide)

/-- C6: in a consistent container, for every position and every key `k` already present in an
entry `n0`, each of `try_emplace` (the `const key_type&` and the `key_type&&` overload) and the
four `_front` / `_back` bindings returns `(handle of n0, false)` and leaves the container as it
was: same sequence, same index (hence same size), and `n0` still holds its value. -/
theorem C6_try_emplace_present_key_unchanged (c : LRU K V) (h : c.Consistent) (pos : iterator)
    (k : K) (args : V) (reg : Bool) (n0 : Node K V) (hn : n0 ∈ c.m_data) (hk : n0.first = k) :
    c.try_emplace pos k args reg = (c, Except.ok (some n0.id, false)) ∧
    c.try_emplace_rv pos k args reg = (c, Except.ok (some n0.id, false)) ∧
    c.try_emplace_front k args reg = (c, Except.ok (some n0.id, false)) ∧
    c.try_emplace_back k args reg = (c, Except.ok (some n0.id, false)) ∧
    c.try_emplace_front_rv k args reg = (c, Except.ok (some n0.id, false)) ∧
    c.try_emplace_back_rv k args reg = (c, Except.ok (some n0.id, false)) ∧
    c.deref (some n0.id) = some n0 := by
  subst hk
  have hf := h.find_node hn
  have key : ∀ p : iterator, c.try_emplace p n0.first args reg
      = (c, Except.ok (some n0.id, false)) := by
    intro p
    unfold LRU.try_emplace
    simp only [hf]
  have key2 : ∀ p : iterator, c.try_emplace_rv p n0.first args reg
      = (c, Except.ok (some n0.id, false)) := by
    intro p
    unfold LRU.try_emplace_rv
    simp only [hf]
  exact ⟨key pos, key2 pos, key _, key _, key2 _, key2 _, h.deref_of_mem hn⟩

theorem C6_try_emplace_present_key_unchanged_witness :
    sampleLRU.try_emplace (some 2) 1 99 true
        = (sampleLRU, Except.ok (some (⟨1, 1, 10⟩ : Node Nat Nat).id, false)) ∧
    sampleLRU.try_emplace_rv (some 2) 1 99 true
        = (sampleLRU, Except.ok (some (⟨1, 1, 10⟩ : Node Nat Nat).id, false)) ∧
    sampleLRU.try_emplace_front 1 99 true
        = (sampleLRU, Except.ok (some (⟨1, 1, 10⟩ : Node Nat Nat).id, false)) ∧
    sampleLRU.try_emplace_back 1 99 true
        = (sampleLRU, Except.ok (some (⟨1, 1, 10⟩ : Node Nat Nat).id, false)) ∧
    sampleLRU.try_emplace_front_rv 1 99 true
        = (sampleLRU, Except.ok (some (⟨1, 1, 10⟩ : Node Nat Nat).id, false)) ∧
    sampleLRU.try_emplace_back_rv 1 99 true
        = (sampleLRU, Except.ok (some (⟨1, 1, 10⟩ : Node Nat Nat).id, false)) ∧
    sampleLRU.deref (some (⟨1, 1, 10⟩ : Node Nat Nat).id) = some ⟨1, 1, 10⟩ :=
  C6_try_emplace_present_key_unchanged sampleLRU sampleLRU_consistent (some 2) 1 99 true
    ⟨1, 1, 10⟩ (by decide) rfl

/-- C7 as stated fails: in the consistent container `sampleLRU`, where key 1 holds 10,
`emplace(end(), 1, 99)` returns `(handle of the existing entry, false)` and the following
`find(1)` resolves to the entry `(1, 10)`, whose value is not 99. -/
theorem C7_counterexample :
    sampleLRU.Consistent ∧
    (sampleLRU.emplace none 1 99 true).2 = Except.ok (some 1, false) ∧
    (sampleLRU.emplace none 1 99 true).1.deref ((sampleLRU.emplace none 1 99 true).1.find 1)
      = some ⟨1, 1, 10⟩ ∧
    ¬ (∃ n : Node Nat Nat,
        (sampleLRU.emplace none 1 99 true).1.deref ((sampleLRU.emplace none 1 99 true).1.find 1)
          = some n ∧ n.second = 99) := by
  have e : (sampleLRU.emplace none 1 99 true).1.deref ((sampleLRU.emplace none 1 99 true).1.find 1)
      = some ⟨1, 1, 10⟩ := by decide
  refine ⟨sampleLRU_consistent, rfl, e, ?_⟩
  rintro ⟨n, hn, hv⟩
  rw [e] at hn
  cases hn
  exact absurd hv (by decide)

/-- C7 (amended): in a consistent container, when `emplace(pos, k, v)` returns `(h, inserted)`,
an immediately following `find(k)` returns `h`, which is not `end()` and resolves to an entry
with key `k`.  `inserted` is true exactly when `k` was absent before the call, and then the
entry's value is `v`; when `k` was already present the entry is the existing one, with the
value it had before the call. -/
theorem C7_emplace_then_find (c : LRU K V) (h : c.Consistent) (pos : iterator) (k : K) (v : V)
    (reg : Bool) (r : iterator × Bool) (hr : (c.emplace pos k v reg).2 = Except.ok r) :
    ∃ n : Node K V,
      (c.emplace pos k v reg).1.find k = some n.id ∧
      r.1 = some n.id ∧
      (c.emplace pos k v reg).1.deref ((c.emplace pos k v reg).1.find k) = some n ∧
      n.first = k ∧
      (r.2 = true ↔ ∀ m ∈ c.m_data, m.first ≠ k) ∧
      (r.2 = true → n.second = v) ∧
      (r.2 = false → n ∈ c.m_data) := by
  cases he : umap_find c.m_index k with
  | some e =>
    obtain ⟨n, hn, hk, rfl⟩ := h.find_some he
    rw [LRU.emplace_of_found c pos k v reg he] at hr ⊢
    cases hr
    subst hk
    refine ⟨n, h.find_of_mem hn, rfl, ?_, rfl, ?_, ?_, fun _ => hn⟩
    · rw [h.find_of_mem hn]; exact h.deref_of_mem hn
    · constructor
      · intro hf; cases hf
      · intro hall; exact absurd rfl (hall n hn)
    · intro hf; cases hf
  | none =>
    cases reg with
    | false =>
      rw [LRU.emplace_of_absent_throw c pos k v he] at hr
      cases hr
    | true =>
      have hc1 := LRU.emplace_consistent h pos k v true
      rw [LRU.emplace_of_absent_ok c pos k v he] at hr hc1 ⊢
      cases hr
      have hx : (⟨freshId c.m_data, k, v⟩ : Node K V) ∈
          list_emplace c.m_data pos ⟨freshId c.m_data, k, v⟩ :=
        (list_emplace_perm _ _ _).mem_iff.mpr (List.mem_cons_self _ _)
      have hfind := hc1.find_of_mem hx
      refine ⟨⟨freshId c.m_data, k, v⟩, hfind, rfl, ?_, rfl, ?_, fun _ => rfl, ?_⟩
      · rw [hfind]; exact hc1.deref_of_mem hx
      · constructor
        · intro _ m hm e
          exact h.find_none_absent he (e ▸ List.mem_map_of_mem _ hm)
        · intro _; rfl
      · intro hf; cases hf

theorem C7_emplace_then_find_witness :
    ∃ n : Node Nat Nat,
      (sampleLRU.emplace (some 1) 7 70 true).1.find 7 = some n.id ∧
      ((some 3, true) : iterator × Bool).1 = some n.id ∧
      (sampleLRU.emplace (some 1) 7 70 true).1.deref ((sampleLRU.emplace (some 1) 7 70 true).1.find 7)
        = some n ∧
      n.first = 7 ∧
      (((some 3, true) : iterator × Bool).2 = true ↔ ∀ m ∈ sampleLRU.m_data, m.first ≠ 7) ∧
      (((some 3, true) : iterator × Bool).2 = true → n.second = 70) ∧
      (((some 3, true) : iterator × Bool).2 = false → n ∈ sampleLRU.m_data) :=
  C7_emplace_then_find sampleLRU sampleLRU_consistent (some 1) 7 70 true (some 3, true) rfl

/-- C8: in a consistent container, for every position, every absent key `k` and every value, when
the index registration inside `emplace` or `try_emplace` (either overload) throws, the call
reports the exception and the container afterwards is the container before the call: the
provisional entry is not in the sequence, the order of the entries and `size()` are unchanged,
and `find(k)` is still `end()`. -/
theorem C8_registration_failure_rolls_back (c : LRU K V) (h : c.Consistent) (pos : iterator)
    (k : K) (v : V) (hk : ∀ n ∈ c.m_data, n.first ≠ k) :
    c.emplace pos k v false = (c, Except.error Exn.bad_alloc) ∧
    c.try_emplace pos k v false = (c, Except.error Exn.bad_alloc) ∧
    c.try_emplace_rv pos k v false = (c, Except.error Exn.bad_alloc) ∧
    (c.emplace pos k v false).1.m_data = c.m_data ∧
    (∀ n ∈ (c.emplace pos k v false).1.m_data, n.first ≠ k) ∧
    (c.emplace pos k v false).1.size = c.size ∧
    (c.emplace pos k v false).1.find k = c.end_ := by
  have he := h.find_absent hk
  have e1 := LRU.emplace_of_absent_throw c pos k v he
  refine ⟨e1, ?_, ?_, ?_, ?_, ?_, ?_⟩
  · rw [LRU.try_emplace_eq_emplace]; exact e1
  · rw [LRU.try_emplace_rv_eq, LRU.try_emplace_eq_emplace]; exact e1
  · rw [e1]
  · rw [e1]; exact hk
  · rw [e1]
  · rw [e1]; exact h.find_of_absent hk

theorem C8_registration_failure_rolls_back_witness :
    sampleLRU.emplace (some 1) 7 70 false = (sampleLRU, Except.error Exn.bad_alloc) ∧
    sampleLRU.try_emplace (some 1) 7 70 false = (sampleLRU, Except.error Exn.bad_alloc) ∧
    sampleLRU.try_emplace_rv (some 1) 7 70 false = (sampleLRU, Except.error Exn.bad_alloc) ∧
    (sampleLRU.emplace (some 1) 7 70 false).1.m_data = sampleLRU.m_data ∧
    (∀ n ∈ (sampleLRU.emplace (some 1) 7 70 false).1.m_data, n.first ≠ 7) ∧
    (sampleLRU.emplace (some 1) 7 70 false).1.size = sampleLRU.size ∧
    (sampleLRU.emplace (some 1) 7 70 false).1.find 7 = sampleLRU.end_ :=
  C8_registration_failure_rolls_back sampleLRU sampleLRU_consistent (some 1) 7 70 (by decide)

/-- C9: in a consistent container, for every key `k` present in an entry `n0`, `erase(k)` returns
1; afterwards `find(k)` is `end()`, `size()` is smaller by exactly one, the sequence is the
previous sequence with exactly `n0` taken out (the other entries keep their values and order),
and the key of every remaining entry still resolves to that entry through `find`. -/
theorem C9_erase_present_key (c : LRU K V) (h : c.Consistent) (k : K) (n0 : Node K V)
    (hn : n0 ∈ c.m_data) (hk : n0.first = k) :
    (c.erase k).2 = 1 ∧
    (c.erase k).1.find k = (c.erase k).1.end_ ∧
    (c.erase k).1.size + 1 = c.size ∧
    (∃ pre post : List (Node K V),
      c.m_data = pre ++ n0 :: post ∧ (c.erase k).1.m_data = pre ++ post) ∧
    (∀ m ∈ (c.erase k).1.m_data,
      (c.erase k).1.find m.first = some m.id ∧ (c.erase k).1.deref (some m.id) = some m) := by
  subst hk
  have hc1 := LRU.erase_consistent h n0.first
  have habs := h.erase_key_absent n0.first
  obtain ⟨pre, post, hl, he⟩ := list_erase_split h.ids_nodup hn
  refine ⟨?_, hc1.find_of_absent habs, ?_, ⟨pre, post, hl, ?_⟩, ?_⟩
  · rw [h.erase_of_mem hn]
  · rw [hc1.size_eq, h.size_eq, h.erase_of_mem hn]
    show (list_erase c.m_data n0.id).length + 1 = c.m_data.length
    rw [he, hl]
    simp only [List.length_append, List.length_cons]
    omega
  · rw [h.erase_of_mem hn]; exact he
  · intro m hm
    exact ⟨hc1.find_of_mem hm, hc1.deref_of_mem hm⟩

theorem C9_erase_present_key_witness :
    (sampleLRU.erase 2).2 = 1 ∧
    (sampleLRU.erase 2).1.find 2 = (sampleLRU.erase 2).1.end_ ∧
    (sampleLRU.erase 2).1.size + 1 = sampleLRU.size ∧
    (∃ pre post : List (Node Nat Nat),
      sampleLRU.m_data = pre ++ ⟨2, 2, 20⟩ :: post ∧ (sampleLRU.erase 2).1.m_data = pre ++ post) ∧
    (∀ m ∈ (sampleLRU.erase 2).1.m_data,
      (sampleLRU.erase 2).1.find m.first = some m.id ∧
        (sampleLRU.erase 2).1.deref (some m.id) = some m) :=
  C9_erase_present_key sampleLRU sampleLRU_consistent 2 ⟨2, 2, 20⟩ (by decide) rfl

/-- C10: in a consistent container, `erase(k)` for an absent key `k` returns 0 and leaves the
container as it was (order, values, size, lookups); and for every key `k`, a second `erase(k)`
right after a first one returns 0 and leaves the container the first call produced. -/
theorem C10_erase_absent_key_idempotent (c : LRU K V) (h : c.Consistent) (k : K) :
    ((∀ n ∈ c.m_data, n.first ≠ k) → c.erase k = (c, 0)) ∧
    (c.erase k).1.erase k = ((c.erase k).1, 0) := by
  constructor
  · intro hk
    exact LRU.erase_of_absent c (h.find_absent hk)
  · exact LRU.erase_of_absent _
      ((LRU.erase_consistent h k).find_absent (h.erase_key_absent k))

theorem C10_erase_absent_key_idempotent_witness :
    ((∀ n ∈ sampleLRU.m_data, n.first ≠ 2) → sampleLRU.erase 2 = (sampleLRU, 0)) ∧
    (sampleLRU.erase 2).1.erase 2 = ((sampleLRU.erase 2).1, 0) :=
  C10_erase_absent_key_idempotent sampleLRU sampleLRU_consistent 2

end Claims

/-! ## Removal by handle and by range -/

section RemovalByHandle

variable {K V : Type} [DecidableEq K]

theorem list_erase_at {pre post : List (Node K V)} {e : Node K V}
    (hnd : ((pre ++ e :: post).map Node.id).Nodup) :
    list_erase (pre ++ e :: post) e.id = pre ++ post := by
  unfold list_erase
  rw [List.eraseP_append_right, List.eraseP_cons_of_pos (by simp)]
  intro b hb
  rw [List.map_append, List.map_cons, List.nodup_append] at hnd
  have hdis := hnd.2.2
  have : b.id ≠ e.id := by
    intro hbe
    exact hdis (List.mem_map_of_mem Node.id hb) (hbe ▸ List.mem_cons_self _ _)
  simpa using this

theorem list_next_at {pre post : List (Node K V)} {e : Node K V}
    (hnd : ((pre ++ e :: post).map Node.id).Nodup) :
    list_next (pre ++ e :: post) e.id = post.head?.map Node.id := by
  induction pre with
  | nil => simp [list_next]
  | cons a pre ih =>
    rw [List.cons_append, List.map_cons, List.nodup_cons] at hnd
    have hne : a.id ≠ e.id := by
      intro hae
      apply hnd.1
      rw [hae]
      exact List.mem_map_of_mem Node.id (List.mem_append_right _ (List.mem_cons_self _ _))
    rw [List.cons_append]
    unfold list_next
    rw [if_neg hne]
    exact ih hnd.2

theorem head_id_ne_of_nodup {pre mid post : List (Node K V)} {e : Node K V}
    (hnd : ((pre ++ (e :: mid ++ post)).map Node.id).Nodup) :
    (some e.id : iterator) ≠ post.head?.map Node.id := by
  cases post with
  | nil => simp
  | cons p post =>
    intro h
    simp only [List.head?_cons, Option.map_some', Option.some.injEq] at h
    rw [List.map_append, List.nodup_append] at hnd
    have h2 := hnd.2.1
    rw [List.cons_append, List.map_cons, List.nodup_cons] at h2
    apply h2.1
    rw [h]
    exact List.mem_map_of_mem Node.id (List.mem_append_right _ (List.mem_cons_self _ _))

namespace LRU

theorem Consistent.erase_pos_at {c : LRU K V} (h : c.Consistent) {pre post : List (Node K V)}
    {e : Node K V} (hl : c.m_data = pre ++ e :: post) :
    c.erase_pos (some e.id)
      = some (⟨pre ++ post, umap_erase c.m_index e.first⟩, post.head?.map Node.id) := by
  have hmem : e ∈ c.m_data := by rw [hl]; simp
  have hnd := h.ids_nodup
  rw [hl] at hnd
  unfold erase_pos
  rw [h.deref_of_mem hmem]
  simp only [hl, list_erase_at hnd, list_next_at hnd]

theorem Consistent.split_of_deref {c : LRU K V} (h : c.Consistent) {it : iterator}
    {e : Node K V} (he : c.deref it = some e) :
    it = some e.id ∧ ∃ pre post : List (Node K V), c.m_data = pre ++ e :: post := by
  obtain ⟨hm, hit⟩ := deref_some_mem he
  obtain ⟨pre, post, hl, _⟩ := list_erase_split h.ids_nodup hm
  exact ⟨hit, pre, post, hl⟩

theorem Consistent.find_gone {c c1 : LRU K V} (h : c.Consistent) (h1 : c1.Consistent)
    {pre post : List (Node K V)} {e : Node K V} (hl : c.m_data = pre ++ e :: post)
    (hl1 : c1.m_data = pre ++ post) : c1.find e.first = none := by
  have hmem : e ∈ c.m_data := by rw [hl]; simp
  refine h1.find_of_absent ?_
  have hg := h.key_gone hmem
  have hnd := h.ids_nodup
  rw [hl] at hnd
  rw [hl, list_erase_at hnd] at hg
  rw [hl1]
  exact hg

theorem erase_range_loop_self (fuel : Nat) (c : LRU K V) (p : iterator) :
    erase_range_loop fuel c p p = some (c, p) := by
  cases fuel with
  | zero => simp [erase_range_loop]
  | succ f => simp [erase_range_loop]

theorem erase_range_loop_spec (mid : List (Node K V)) :
    ∀ (fuel : Nat) (c : LRU K V) (pre post : List (Node K V)), c.Consistent →
      c.m_data = pre ++ (mid ++ post) → mid.length ≤ fuel →
      ∃ c1 : LRU K V,
        erase_range_loop fuel c ((mid ++ post).head?.map Node.id) (post.head?.map Node.id)
          = some (c1, post.head?.map Node.id) ∧
        c1.m_data = pre ++ post ∧ c1.Consistent ∧ (mid = [] → c1 = c) := by
  induction mid with
  | nil =>
    intro fuel c pre post h hl _
    refine ⟨c, ?_, by simpa using hl, h, fun _ => rfl⟩
    cases fuel with
    | zero => simp [erase_range_loop]
    | succ f => simp [erase_range_loop]
  | cons e mid ih =>
    intro fuel c pre post h hl hf
    cases fuel with
    | zero => simp at hf
    | succ f =>
      have hnd := h.ids_nodup
      rw [hl] at hnd
      have hne : (some e.id : iterator) ≠ post.head?.map Node.id := head_id_ne_of_nodup hnd
      have hl2 : c.m_data = pre ++ e :: (mid ++ post) := by rw [hl]; simp
      have hstep := h.erase_pos_at hl2
      have hc1 : Consistent (⟨pre ++ (mid ++ post), umap_erase c.m_index e.first⟩ : LRU K V) :=
        erase_pos_consistent h hstep
      obtain ⟨c2, hrun, hd, hc2, _⟩ :=
        ih f ⟨pre ++ (mid ++ post), umap_erase c.m_index e.first⟩ pre post hc1 rfl
          (by simpa using hf)
      refine ⟨c2, ?_, hd, hc2, fun hnil => by cases hnil⟩
      have hhead : ((e :: mid) ++ post).head?.map Node.id = some e.id := by simp
      rw [hhead]
      unfold erase_range_loop
      rw [if_neg hne, hstep]
      exact hrun

end LRU

end RemovalByHandle

/-! ## The claims on removal by handle and by range -/

section ClaimsRemoval

variable {K V : Type} [DecidableEq K]

/-- C11: in a consistent container, for every handle `it` that resolves to an entry `e`,
`erase(it)` takes `e` out of the sequence and out of the key index: the other entries keep their
order, `find(key of e)` becomes `end()`, `size()` is smaller by one, every remaining key still
resolves to its entry, and the call returns the handle of the entry that followed `e`, `end()`
when `e` was the last entry. -/
theorem C11_erase_handle (c : LRU K V) (h : c.Consistent) (it : iterator) (e : Node K V)
    (he : c.deref it = some e) :
    ∃ (pre post : List (Node K V)) (c1 : LRU K V),
      c.m_data = pre ++ e :: post ∧
      c.erase_pos it = some (c1, post.head?.map Node.id) ∧
      c1.m_data = pre ++ post ∧
      c1.find e.first = c1.end_ ∧
      c1.size + 1 = c.size ∧
      (∀ m ∈ c1.m_data, c1.find m.first = some m.id ∧ c1.deref (some m.id) = some m) := by
  obtain ⟨hit, pre, post, hl⟩ := h.split_of_deref he
  subst hit
  have hstep := h.erase_pos_at hl
  have hc1 := LRU.erase_pos_consistent h hstep
  refine ⟨pre, post, _, hl, hstep, rfl, h.find_gone hc1 hl rfl, ?_, ?_⟩
  · rw [hc1.size_eq, h.size_eq, hl]
    simp only [List.length_append, List.length_cons]
    omega
  · intro m hm
    exact ⟨hc1.find_of_mem hm, hc1.deref_of_mem hm⟩

theorem C11_erase_handle_witness :
    ∃ (pre post : List (Node Nat Nat)) (c1 : LRU Nat Nat),
      sampleLRU.m_data = pre ++ ⟨2, 2, 20⟩ :: post ∧
      sampleLRU.erase_pos (some 2) = some (c1, post.head?.map Node.id) ∧
      c1.m_data = pre ++ post ∧
      c1.find (⟨2, 2, 20⟩ : Node Nat Nat).first = c1.end_ ∧
      c1.size + 1 = sampleLRU.size ∧
      (∀ m ∈ c1.m_data, c1.find m.first = some m.id ∧ c1.deref (some m.id) = some m) :=
  C11_erase_handle sampleLRU sampleLRU_consistent (some 2) ⟨2, 2, 20⟩ rfl

/-- The loop of `erase(first, last)`, without the `return` statement that follows it.  In a
consistent container whose sequence is `pre ++ mid ++ post`, with `first` the position of the
first entry of `mid ++ post` and `last` the position of the first entry of `post` (`end()` when
there is none), the loop ends within `m_data.size()` iterations with `first` equal to `last`;
the sequence is then `pre ++ post`, `size()` is smaller by the length of `mid`, the keys of `mid`
are no longer found, every entry of `pre ++ post` is still found and resolves to itself, and
nothing has changed when `first = last`. -/
theorem erase_range_loop_effect (c : LRU K V) (h : c.Consistent) (pre mid post : List (Node K V))
    (hl : c.m_data = pre ++ (mid ++ post)) (first last : iterator)
    (hfirst : first = (mid ++ post).head?.map Node.id) (hlast : last = post.head?.map Node.id) :
    ∃ c1 : LRU K V,
      LRU.erase_range_loop c.m_data.length c first last = some (c1, last) ∧
      c1.m_data = pre ++ post ∧
      c1.size + mid.length = c.size ∧
      (∀ m ∈ mid, c1.find m.first = c1.end_) ∧
      (∀ m ∈ pre ++ post, c1.find m.first = some m.id ∧ c1.deref (some m.id) = some m) ∧
      (first = last → c1 = c) := by
  subst hfirst hlast
  have hlen : mid.length ≤ c.m_data.length := by
    rw [hl]; simp only [List.length_append]; omega
  obtain ⟨c1, hrun, hd, hc1, _⟩ :=
    LRU.erase_range_loop_spec mid c.m_data.length c pre post h hl hlen
  refine ⟨c1, hrun, hd, ?_, ?_, ?_, ?_⟩
  · rw [hc1.size_eq, h.size_eq, hd, hl]
    simp only [List.length_append]
    omega
  · intro m hm
    refine hc1.find_of_absent ?_
    have hk := h.keys_nodup
    rw [hl, List.map_append, List.map_append, List.nodup_append] at hk
    obtain ⟨_, hk2, hdis1⟩ := hk
    rw [List.nodup_append] at hk2
    have hdis2 := hk2.2.2
    intro n hn hnm
    rw [hd] at hn
    rcases List.mem_append.mp hn with hp | hp
    · refine hdis1 (List.mem_map_of_mem Node.first hp) ?_
      rw [hnm]
      exact List.mem_append_left _ (List.mem_map_of_mem Node.first hm)
    · refine hdis2 (List.mem_map_of_mem Node.first hm) ?_
      rw [← hnm]
      exact List.mem_map_of_mem Node.first hp
  · intro m hm
    rw [← hd] at hm
    exact ⟨hc1.find_of_mem hm, hc1.deref_of_mem hm⟩
  · intro heq
    rw [heq] at hrun
    have hsame := LRU.erase_range_loop_self c.m_data.length c (post.head?.map Node.id)
    rw [hsame] at hrun
    exact ((Prod.mk.inj (Option.some.inj hrun)).1).symm

/-- C12 fails on the source: `erase(first, last)` ends in `return first;`, whose operand is the
`const_iterator` parameter, while the member is declared to return `iterator`, which the sibling
`erase(pos)` does by returning the result of `m_data.erase(pos)`.  At `erase(find(2), find(1))`
on `sampleLRU` the loop has removed the entry for key 2, and what the `return` statement hands
back is that `const_iterator`, not an `iterator`. -/
theorem C12_erase_range_returns_const_iterator :
    sampleLRU.erase_range (some 2) (some 1)
      = some (⟨[⟨1, 1, 10⟩], [(1, 1)]⟩, ReturnedIter.of_const_iterator (some 1)) ∧
    sampleLRU.erase_pos (some 2) = some (⟨[⟨1, 1, 10⟩], [(1, 1)]⟩, some 1) ∧
    (sampleLRU.erase_range (some 2) (some 1)).map Prod.snd
      ≠ some (ReturnedIter.of_iterator (some 1)) := by
  refine ⟨rfl, rfl, ?_⟩
  have e : (sampleLRU.erase_range (some 2) (some 1)).map Prod.snd
      = some (ReturnedIter.of_const_iterator (some 1)) := rfl
  rw [e]
  intro hh
  cases hh

end ClaimsRemoval

/-! ## Repositioning -/

section Repositioning

variable {K V : Type} [DecidableEq K]

namespace LRU

theorem validPos_some_iff (c : LRU K V) (i : Nat) :
    c.validPos (some i) = true ↔ ∃ n ∈ c.m_data, n.id = i := by
  unfold validPos deref list_deref
  simp only [List.find?_isSome, decide_eq_true_eq]

theorem validPos_begin (c : LRU K V) : c.validPos c.begin = true := by
  unfold begin
  cases hd : c.m_data with
  | nil => rfl
  | cons a l =>
    simp only [List.head?_cons, Option.map_some']
    rw [validPos_some_iff]
    exact ⟨a, by rw [hd]; exact List.mem_cons_self _ _, rfl⟩

theorem Consistent.splice_at {c : LRU K V} (h : c.Consistent) {pre post : List (Node K V)}
    {e : Node K V} (hl : c.m_data = pre ++ e :: post) {pos : iterator}
    (hpos : c.validPos pos = true) (hne : pos ≠ some e.id) :
    c.splice pos (some e.id) = some ⟨list_emplace (pre ++ post) pos e, c.m_index⟩ := by
  have hmem : e ∈ c.m_data := by rw [hl]; simp
  have hnd := h.ids_nodup
  rw [hl] at hnd
  have hd := h.deref_of_mem hmem
  have hd2 : list_deref c.m_data (some e.id) = some e := hd
  unfold splice
  rw [hd]
  simp only [hpos, if_true]
  unfold list_splice
  rw [if_neg hne, hd2]
  simp only [hl, list_erase_at hnd]

theorem Consistent.splice_self {c : LRU K V} (h : c.Consistent) {e : Node K V}
    (hmem : e ∈ c.m_data) : c.splice (some e.id) (some e.id) = some c := by
  have hd := h.deref_of_mem hmem
  have hv : c.validPos (some e.id) = true := (validPos_some_iff c e.id).mpr ⟨e, hmem, rfl⟩
  unfold splice
  rw [hd]
  simp only [hv, if_true]
  unfold list_splice
  rw [if_pos rfl]

theorem splice_index {c c1 : LRU K V} {pos it : iterator} (hs : c.splice pos it = some c1) :
    c1.m_index = c.m_index := by
  unfold splice at hs
  cases hd : c.deref it with
  | none => rw [hd] at hs; cases hs
  | some n =>
    rw [hd] at hs
    simp only at hs
    split at hs
    · cases hs; rfl
    · cases hs

theorem find_congr_index {c c1 : LRU K V} (hi : c1.m_index = c.m_index) (k : K) :
    c1.find k = c.find k := by
  unfold find end_
  rw [hi]

theorem validPos_remove {c : LRU K V} {pre post : List (Node K V)} {e : Node K V}
    (hl : c.m_data = pre ++ e :: post) {pos : iterator} (hpos : c.validPos pos = true)
    (hne : pos ≠ some e.id) (idx : List (K × Nat)) :
    (⟨pre ++ post, idx⟩ : LRU K V).validPos pos = true := by
  cases pos with
  | none => rfl
  | some i =>
    rw [validPos_some_iff] at hpos ⊢
    obtain ⟨n, hn, hni⟩ := hpos
    refine ⟨n, ?_, hni⟩
    rw [hl] at hn
    have hn2 : n ∈ pre ∨ n = e ∨ n ∈ post := by simpa using hn
    rcases hn2 with hp | hp | hp
    · exact List.mem_append_left _ hp
    · exact absurd (by rw [← hni, hp]) hne
    · exact List.mem_append_right _ hp

end LRU

end Repositioning

/-! ## The claims on repositioning -/

section ClaimsRepositioning

variable {K V : Type} [DecidableEq K]

/-- C13: in a consistent container, for every handle `it` that resolves to an entry `e` (so the
container is not empty), `bump_front(it)` makes `e` the front entry and leaves the other entries
in the order they had; the key index is not touched, so `size()` and every `find` result are as
before, and no value changes. -/
theorem C13_bump_front (c : LRU K V) (h : c.Consistent) (it : iterator) (e : Node K V)
    (he : c.deref it = some e) :
    ∃ (pre post : List (Node K V)) (c1 : LRU K V),
      c.m_data = pre ++ e :: post ∧
      c.bump_front it = some c1 ∧
      c1.m_data = e :: (pre ++ post) ∧
      c1.front = some e ∧
      c1.m_index = c.m_index ∧
      c1.size = c.size ∧
      (∀ k, c1.find k = c.find k) := by
  obtain ⟨hit, pre, post, hl⟩ := h.split_of_deref he
  subst hit
  have hmem : e ∈ c.m_data := by rw [hl]; simp
  have key : ∃ c1 : LRU K V, c.bump_front (some e.id) = some c1 ∧
      c1.m_data = e :: (pre ++ post) := by
    unfold LRU.bump_front
    cases pre with
    | nil =>
      have hb : c.begin = some e.id := by unfold LRU.begin; rw [hl]; rfl
      rw [hb, h.splice_self hmem]
      exact ⟨c, rfl, by simpa using hl⟩
    | cons p pre =>
      have hb : c.begin = some p.id := by unfold LRU.begin; rw [hl]; rfl
      have hnd := h.ids_nodup
      rw [hl, List.cons_append, List.map_cons, List.nodup_cons] at hnd
      have hne : (some p.id : iterator) ≠ some e.id := by
        intro hpe
        apply hnd.1
        rw [Option.some.inj hpe]
        exact List.mem_map_of_mem Node.id (List.mem_append_right _ (List.mem_cons_self _ _))
      have hv : c.validPos (some p.id) = true := hb ▸ LRU.validPos_begin c
      rw [hb, h.splice_at hl hv hne]
      refine ⟨_, rfl, ?_⟩
      exact list_emplace_begin (p :: pre ++ post) e
  obtain ⟨c1, hs, hd⟩ := key
  have hi := LRU.splice_index hs
  refine ⟨pre, post, c1, hl, hs, hd, ?_, hi, ?_, LRU.find_congr_index hi⟩
  · unfold LRU.front; rw [hd]; rfl
  · unfold LRU.size; rw [hi]

theorem C13_bump_front_witness :
    ∃ (pre post : List (Node Nat Nat)) (c1 : LRU Nat Nat),
      sampleLRU.m_data = pre ++ ⟨1, 1, 10⟩ :: post ∧
      sampleLRU.bump_front (some 1) = some c1 ∧
      c1.m_data = ⟨1, 1, 10⟩ :: (pre ++ post) ∧
      c1.front = some ⟨1, 1, 10⟩ ∧
      c1.m_index = sampleLRU.m_index ∧
      c1.size = sampleLRU.size ∧
      (∀ k, c1.find k = sampleLRU.find k) :=
  C13_bump_front sampleLRU sampleLRU_consistent (some 1) ⟨1, 1, 10⟩ rfl

/-- C14: in a consistent container, for every handle `it` that resolves to an entry `e`,
`bump_back(it)` makes `e` the back entry and leaves the other entries in the order they had; the
key index is not touched, so `size()` and every `find` result are as before, and no value
changes. -/
theorem C14_bump_back (c : LRU K V) (h : c.Consistent) (it : iterator) (e : Node K V)
    (he : c.deref it = some e) :
    ∃ (pre post : List (Node K V)) (c1 : LRU K V),
      c.m_data = pre ++ e :: post ∧
      c.bump_back it = some c1 ∧
      c1.m_data = (pre ++ post) ++ [e] ∧
      c1.back = some e ∧
      c1.m_index = c.m_index ∧
      c1.size = c.size ∧
      (∀ k, c1.find k = c.find k) := by
  obtain ⟨hit, pre, post, hl⟩ := h.split_of_deref he
  subst hit
  have hs : c.bump_back (some e.id) = some ⟨list_emplace (pre ++ post) none e, c.m_index⟩ := by
    unfold LRU.bump_back LRU.end_
    exact h.splice_at hl rfl (by simp)
  rw [list_emplace_end] at hs
  refine ⟨pre, post, _, hl, hs, rfl, ?_, rfl, rfl, fun k => rfl⟩
  unfold LRU.back
  exact List.getLast?_concat _

theorem C14_bump_back_witness :
    ∃ (pre post : List (Node Nat Nat)) (c1 : LRU Nat Nat),
      sampleLRU.m_data = pre ++ ⟨2, 2, 20⟩ :: post ∧
      sampleLRU.bump_back (some 2) = some c1 ∧
      c1.m_data = (pre ++ post) ++ [⟨2, 2, 20⟩] ∧
      c1.back = some ⟨2, 2, 20⟩ ∧
      c1.m_index = sampleLRU.m_index ∧
      c1.size = sampleLRU.size ∧
      (∀ k, c1.find k = sampleLRU.find k) :=
  C14_bump_back sampleLRU sampleLRU_consistent (some 2) ⟨2, 2, 20⟩ rfl

/-- C15: in a consistent container, for every handle `it` that resolves to an entry `e` and every
target position `pos` that is the handle of another entry or `end()`, `splice(pos, it)` puts `e`
immediately before `pos`; the other entries keep their order (the sequence without `e` is the
same before and after), and the key index is not touched: `size()` and `find(k)` for every key
are as before, and the key of `e` still resolves to `e` with its value. -/
theorem C15_splice (c : LRU K V) (h : c.Consistent) (it : iterator) (e : Node K V)
    (he : c.deref it = some e) (pos : iterator) (hpos : c.validPos pos = true) (hne : pos ≠ it) :
    ∃ (pre post before after : List (Node K V)) (c1 : LRU K V),
      c.m_data = pre ++ e :: post ∧
      c.splice pos it = some c1 ∧
      pre ++ post = before ++ after ∧
      c1.m_data = before ++ e :: after ∧
      after.head?.map Node.id = pos ∧
      c1.m_index = c.m_index ∧
      c1.size = c.size ∧
      (∀ k, c1.find k = c.find k) ∧
      c1.find e.first = it ∧
      c1.deref it = some e := by
  obtain ⟨hit, pre, post, hl⟩ := h.split_of_deref he
  subst hit
  have hmem : e ∈ c.m_data := by rw [hl]; simp
  have hs := h.splice_at hl hpos hne
  have hc1 := LRU.splice_consistent h hs
  have hv := LRU.validPos_remove hl hpos hne c.m_index
  have hhead := head_dropWhile_of_validPos ⟨pre ++ post, c.m_index⟩ pos hv
  have hmem1 : e ∈ list_emplace (pre ++ post) pos e :=
    (list_emplace_perm _ _ _).mem_iff.mpr (List.mem_cons_self _ _)
  refine ⟨pre, post, (pre ++ post).takeWhile (fun n => decide (some n.id ≠ pos)),
    (pre ++ post).dropWhile (fun n => decide (some n.id ≠ pos)), _, hl, hs,
    (List.takeWhile_append_dropWhile _ _).symm, rfl, hhead, rfl, rfl, fun k => rfl, ?_, ?_⟩
  · exact hc1.find_of_mem hmem1
  · exact hc1.deref_of_mem hmem1

theorem C15_splice_witness :
    ∃ (pre post before after : List (Node Nat Nat)) (c1 : LRU Nat Nat),
      sampleLRU.m_data = pre ++ ⟨1, 1, 10⟩ :: post ∧
      sampleLRU.splice (some 2) (some 1) = some c1 ∧
      pre ++ post = before ++ after ∧
      c1.m_data = before ++ ⟨1, 1, 10⟩ :: after ∧
      after.head?.map Node.id = some 2 ∧
      c1.m_index = sampleLRU.m_index ∧
      c1.size = sampleLRU.size ∧
      (∀ k, c1.find k = sampleLRU.find k) ∧
      c1.find (⟨1, 1, 10⟩ : Node Nat Nat).first = some 1 ∧
      c1.deref (some 1) = some ⟨1, 1, 10⟩ :=
  C15_splice sampleLRU sampleLRU_consistent (some 1) ⟨1, 1, 10⟩ rfl (some 2) rfl (by decide)

end ClaimsRepositioning

/-! ## Strict lookup and the index operator -/

section LookupClaims

variable {K V : Type} [DecidableEq K]

namespace LRU

theorem Consistent.at_of_mem {c : LRU K V} (h : c.Consistent) {n : Node K V}
    (hn : n ∈ c.m_data) : c.at_ n.first = some (c, Except.ok n.second) := by
  unfold at_ umap_at
  rw [h.find_node hn]
  simp only
  rw [h.deref_of_mem hn]

theorem Consistent.at_of_absent {c : LRU K V} (h : c.Consistent) {k : K}
    (hk : ∀ n ∈ c.m_data, n.first ≠ k) : c.at_ k = some (c, Except.error Exn.out_of_range) := by
  unfold at_ umap_at
  rw [h.find_absent hk]

/-- The overload `operator[](K&&)` in a consistent container: a present key yields the mapped
value of its entry and changes nothing; an absent key (with a successful index registration) adds
`(key, mapped_type())` at the back and yields the mapped value of the new entry. -/
theorem Consistent.operator_index_rv_spec [Inhabited V] {c : LRU K V} (h : c.Consistent)
    (k : K) :
    (∀ n ∈ c.m_data, n.first = k →
      c.operator_index_rv k true = (c, Except.ok (Returned.mapped_value (some n.id)))) ∧
    ((∀ n ∈ c.m_data, n.first ≠ k) →
      ∃ nid : Nat,
        (c.operator_index_rv k true).2 = Except.ok (Returned.mapped_value (some nid)) ∧
        (c.operator_index_rv k true).1.m_data = c.m_data ++ [⟨nid, k, default⟩] ∧
        (c.operator_index_rv k true).1.back = some ⟨nid, k, default⟩ ∧
        (c.operator_index_rv k true).1.size = c.size + 1) := by
  constructor
  · intro n hn hk
    subst hk
    unfold operator_index_rv
    rw [h.find_node hn]
  · intro hk
    have he := h.find_absent hk
    refine ⟨freshId c.m_data, ?_⟩
    have hrun : c.operator_index_rv k true =
        (⟨list_emplace c.m_data c.end_ ⟨freshId c.m_data, k, default⟩,
            (k, freshId c.m_data) :: c.m_index⟩,
          Except.ok (Returned.mapped_value (some (freshId c.m_data)))) := by
      unfold operator_index_rv emplace_back
      rw [he]
      simp only [emplace_of_absent_ok c c.end_ k default he]
    rw [hrun]
    refine ⟨rfl, ?_, ?_, rfl⟩
    · exact list_emplace_end c.m_data _
    · unfold back
      show (list_emplace c.m_data none _).getLast? = _
      rw [list_emplace_end, List.getLast?_concat]

end LRU

/-- Both overloads of `operator[]` leave the container that `operator_index` describes. -/
theorem LRU.operator_index_overloads_state [Inhabited V] (c : LRU K V) (k : K) (reg : Bool) :
    (c.operator_index_lv k reg).1 = (c.operator_index k reg).1 ∧
    (c.operator_index_rv k reg).1 = (c.operator_index k reg).1 := by
  unfold LRU.operator_index_lv LRU.operator_index_rv LRU.operator_index
  cases umap_find c.m_index k with
  | some x => exact ⟨rfl, rfl⟩
  | none =>
    simp only
    rcases c.emplace_back k (default : V) reg with ⟨c1, r⟩
    cases r with
    | ok r => exact ⟨rfl, rfl⟩
    | error x => exact ⟨rfl, rfl⟩

/-- C16: in a consistent container and for every key `k`, `at(k)` throws `std::out_of_range` (the
key-not-found error) exactly when `k` is absent, returns the value stored in the entry for `k`
when `k` is present, and in both cases leaves the container as it was. -/
theorem C16_at_strict_lookup (c : LRU K V) (h : c.Consistent) (k : K) :
    (c.at_ k = some (c, Except.error Exn.out_of_range) ↔ ∀ n ∈ c.m_data, n.first ≠ k) ∧
    (∀ n ∈ c.m_data, n.first = k → c.at_ k = some (c, Except.ok n.second)) ∧
    (∃ r : Except Exn V, c.at_ k = some (c, r)) := by
  refine ⟨⟨?_, h.at_of_absent⟩, ?_, ?_⟩
  · intro herr n hn hk
    subst hk
    rw [h.at_of_mem hn] at herr
    cases herr
  · intro n hn hk
    subst hk
    exact h.at_of_mem hn
  · by_cases hp : ∃ n ∈ c.m_data, n.first = k
    · obtain ⟨n, hn, hk⟩ := hp
      subst hk
      exact ⟨_, h.at_of_mem hn⟩
    · refine ⟨_, h.at_of_absent ?_⟩
      intro n hn hk
      exact hp ⟨n, hn, hk⟩

theorem C16_at_strict_lookup_witness :
    (sampleLRU.at_ 1 = some (sampleLRU, Except.error Exn.out_of_range) ↔
      ∀ n ∈ sampleLRU.m_data, n.first ≠ 1) ∧
    (∀ n ∈ sampleLRU.m_data, n.first = 1 → sampleLRU.at_ 1 = some (sampleLRU, Except.ok n.second)) ∧
    (∃ r : Except Exn Nat, sampleLRU.at_ 1 = some (sampleLRU, r)) :=
  C16_at_strict_lookup sampleLRU sampleLRU_consistent 1

/-- C17 fails on the overload `operator[](const K&)`: in `sampleLRU`, where key 1 is present, its
`return index_it->second;` hands back the list iterator stored in the index, while the overload
`operator[](K&&)` hands back the mapped value of the node that iterator designates
(`index_it->second->second`), which is what the claim states for both overloads. -/
theorem C17_const_key_overload_returns_iterator :
    sampleLRU.operator_index_lv 1 true
      = (sampleLRU, Except.ok (Returned.stored_iterator (some 1))) ∧
    sampleLRU.operator_index_rv 1 true
      = (sampleLRU, Except.ok (Returned.mapped_value (some 1))) ∧
    (sampleLRU.operator_index_lv 1 true).2 ≠ (sampleLRU.operator_index_rv 1 true).2 := by
  refine ⟨rfl, rfl, ?_⟩
  intro hh
  have e1 : (sampleLRU.operator_index_lv 1 true).2
      = Except.ok (Returned.stored_iterator (some 1)) := rfl
  have e2 : (sampleLRU.operator_index_rv 1 true).2
      = Except.ok (Returned.mapped_value (some 1)) := rfl
  rw [e1, e2] at hh
  cases hh

/-- The scenario of `example.cpp` with the result of `container[3]` taken as a `mapped_type&`,
the return type the overload `operator[](const K&)` declares.  After the five insertions `size()`
is 5 and the keys from front to back are 4, 1, 2, 3, 5; after writing "22" through the handle
`find(2)` returns and `bump_back` of that handle, the keys are 4, 1, 3, 5, 2, `front()` is
`(4, "4")`, `back()` is `(2, "22")`, `count(2)` is 1, `contains(3)` holds and `at(4)` is "4". -/
theorem example_main_with_mapped_ref :
    (∃ c : LRU Int String, example_main_inserted_with LRU.operator_index_lv_kind = some c ∧
      c.size = 5 ∧ c.m_data.map Node.first = [4, 1, 2, 3, 5]) ∧
    (∃ d : LRU Int String, example_main_bumped_with LRU.operator_index_lv_kind = some d ∧
      d.m_data.map Node.first = [4, 1, 3, 5, 2] ∧
      d.front.map (fun n => (n.first, n.second)) = some (4, "4") ∧
      d.back.map (fun n => (n.first, n.second)) = some (2, "22") ∧
      d.count 2 = 1 ∧ d.contains 3 = true ∧
      d.at_ 4 = some (d, Except.ok "4")) :=
  ⟨⟨_, rfl, rfl, rfl⟩, ⟨_, rfl, rfl, rfl, rfl, rfl, rfl, rfl⟩⟩

/-- C19 fails on the source: in `main` of `example.cpp` the statement `container[3] = "3"`
(line 21) calls `operator[](K&&)`, which is declared to return `const mapped_type&`; the
assignment through that reference is ill-formed, so neither part of the scenario can be run and
none of the figures of the claim is produced. -/
theorem C19_example_assigns_through_const_reference :
    LRU.operator_index_rv_kind = RefKind.const_mapped_ref ∧
    (∀ (c : LRU Int String) (it : iterator) (v : String),
      c.assign_through LRU.operator_index_rv_kind it v = none) ∧
    example_main_inserted = none ∧
    example_main_bumped = none :=
  ⟨rfl, fun _ _ _ => rfl, rfl, rfl⟩

/-- C20: `emplace` and `try_emplace` (either overload) agree when the value construction is pure:
for every container, position, key (present or absent), value and outcome of the index
registration they return the same `(handle, inserted)` pair (or the same exception) and leave
the same container. -/
theorem C20_try_emplace_agrees_with_emplace (c : LRU K V) (pos : iterator) (k : K) (v : V)
    (reg : Bool) :
    c.try_emplace pos k v reg = c.emplace pos k v reg ∧
    c.try_emplace_rv pos k v reg = c.emplace pos k v reg ∧
    (c.try_emplace pos k v reg).1.m_data = (c.emplace pos k v reg).1.m_data ∧
    (c.try_emplace pos k v reg).1.size = (c.emplace pos k v reg).1.size ∧
    (∀ k1, (c.try_emplace pos k v reg).1.find k1 = (c.emplace pos k v reg).1.find k1) := by
  have e := LRU.try_emplace_eq_emplace c pos k v reg
  refine ⟨e, ?_, ?_, ?_, ?_⟩
  · rw [LRU.try_emplace_rv_eq]; exact e
  · rw [e]
  · rw [e]
  · intro k1; rw [e]

end LookupClaims

/-! ## Stability of handles -/

section HandleStability

variable {K V : Type} [DecidableEq K]

namespace LRU

theorem emplace_keeps (c : LRU K V) (pos : iterator) (k : K) (v : V) (reg : Bool)
    {e : Node K V} (hm : e ∈ c.m_data) : e ∈ (c.emplace pos k v reg).1.m_data := by
  cases hf : umap_find c.m_index k with
  | some x => rw [emplace_of_found c pos k v reg hf]; exact hm
  | none =>
    cases reg with
    | false => rw [emplace_of_absent_throw c pos k v hf]; exact hm
    | true =>
      rw [emplace_of_absent_ok c pos k v hf]
      exact (list_emplace_perm _ _ _).mem_iff.mpr (List.mem_cons_of_mem _ hm)

theorem operator_index_keeps [Inhabited V] (c : LRU K V) (k : K) (reg : Bool)
    {e : Node K V} (hm : e ∈ c.m_data) : e ∈ (c.operator_index k reg).1.m_data := by
  unfold operator_index
  cases hf : umap_find c.m_index k with
  | some x => exact hm
  | none =>
    have hk := emplace_keeps c c.end_ k (default : V) reg hm
    simp only [emplace_back]
    rcases hq : c.emplace c.end_ k (default : V) reg with ⟨c1, r⟩
    rw [hq] at hk
    cases r with
    | ok r => exact hk
    | error x => exact hk

theorem list_erase_keeps {l : List (Node K V)} {e : Node K V} (hm : e ∈ l) {i : Nat}
    (hne : e.id ≠ i) : e ∈ list_erase l i := by
  unfold list_erase
  exact (List.mem_eraseP_of_neg (by simpa using hne)).mpr hm

theorem Consistent.erase_keeps {c : LRU K V} (h : c.Consistent) {e : Node K V}
    (hm : e ∈ c.m_data) {k : K} (hk : k ≠ e.first) : e ∈ (c.erase k).1.m_data := by
  cases hf : umap_find c.m_index k with
  | none => rw [erase_of_absent c hf]; exact hm
  | some x =>
    obtain ⟨n, hn, hnk, rfl⟩ := h.find_some hf
    subst hnk
    rw [h.erase_of_mem hn]
    refine list_erase_keeps hm ?_
    intro hid
    exact hk ((h.first_eq_iff hm hn).mpr hid.symm)

theorem erase_pos_keeps {c : LRU K V} {e : Node K V} (hm : e ∈ c.m_data) {pos : iterator}
    (hne : pos ≠ some e.id) {r : LRU K V × iterator} (hr : c.erase_pos pos = some r) :
    e ∈ r.1.m_data := by
  unfold erase_pos at hr
  cases hd : c.deref pos with
  | none => rw [hd] at hr; cases hr
  | some n =>
    rw [hd] at hr
    cases hr
    refine list_erase_keeps hm ?_
    intro hid
    exact hne (by rw [(deref_some_mem hd).2, hid])

theorem splice_keeps {c c1 : LRU K V} {e : Node K V} (hm : e ∈ c.m_data) {pos it : iterator}
    (hs : c.splice pos it = some c1) : e ∈ c1.m_data := by
  unfold splice at hs
  cases hd : c.deref it with
  | none => rw [hd] at hs; cases hs
  | some n =>
    rw [hd] at hs
    simp only at hs
    split at hs
    · cases hs
      exact (list_splice_perm _ _ _).mem_iff.mpr hm
    · cases hs

theorem assign_keeps {c c1 : LRU K V} {e : Node K V} (hm : e ∈ c.m_data) {it : iterator} {v : V}
    (hne : it ≠ some e.id) (hs : c.assign it v = some c1) : e ∈ c1.m_data := by
  unfold assign at hs
  cases hd : c.deref it with
  | none => rw [hd] at hs; cases hs
  | some n =>
    rw [hd] at hs
    cases hs
    have hid : ¬ e.id = n.id := by
      intro hid
      exact hne (by rw [(deref_some_mem hd).2, hid])
    refine List.mem_map.mpr ⟨e, hm, ?_⟩
    simp only [hid, if_false]

end LRU

/-- C18: in a consistent container, for every handle `it` that resolves to an entry `e` and every
single operation that does not remove `e` (so not `erase` of its key, of its handle or of a range
holding it, and not `clear()`; the caller's own assignment through `it` aside), after the
operation `it` still resolves to `e`, with the same key and the same value.  This covers every
insertion (also one whose index registration throws), the removal of other entries, and
`splice`, `bump_front` and `bump_back` of `e` itself or of other entries. -/
theorem C18_handle_stability [Inhabited V] (c : LRU K V) (h : c.Consistent) (it : iterator)
    (e : Node K V) (he : c.deref it = some e) (op : Op K V) (hsp : op.spares c e)
    (c1 : LRU K V) (hs : c.step op = some c1) : c1.deref it = some e := by
  obtain ⟨hm, hit⟩ := LRU.deref_some_mem he
  subst hit
  refine (LRU.step_consistent h op hs).deref_of_mem ?_
  cases op with
  | emplace pos k v reg =>
    simp only [LRU.step] at hs
    split at hs
    · cases hs; exact LRU.emplace_keeps c _ _ _ _ hm
    · cases hs
  | emplace_front k v reg => cases hs; exact LRU.emplace_keeps c _ _ _ _ hm
  | emplace_back k v reg => cases hs; exact LRU.emplace_keeps c _ _ _ _ hm
  | try_emplace pos k v reg =>
    simp only [LRU.step] at hs
    split at hs
    · cases hs; rw [LRU.try_emplace_eq_emplace]; exact LRU.emplace_keeps c _ _ _ _ hm
    · cases hs
  | try_emplace_front k v reg =>
    cases hs
    show e ∈ (c.try_emplace c.begin k v reg).1.m_data
    rw [LRU.try_emplace_eq_emplace]; exact LRU.emplace_keeps c _ _ _ _ hm
  | try_emplace_back k v reg =>
    cases hs
    show e ∈ (c.try_emplace c.end_ k v reg).1.m_data
    rw [LRU.try_emplace_eq_emplace]; exact LRU.emplace_keeps c _ _ _ _ hm
  | try_emplace_rv pos k v reg =>
    simp only [LRU.step] at hs
    split at hs
    · cases hs
      rw [LRU.try_emplace_rv_eq, LRU.try_emplace_eq_emplace]
      exact LRU.emplace_keeps c _ _ _ _ hm
    · cases hs
  | try_emplace_front_rv k v reg =>
    cases hs
    show e ∈ (c.try_emplace_rv c.begin k v reg).1.m_data
    rw [LRU.try_emplace_rv_eq, LRU.try_emplace_eq_emplace]
    exact LRU.emplace_keeps c _ _ _ _ hm
  | try_emplace_back_rv k v reg =>
    cases hs
    show e ∈ (c.try_emplace_rv c.end_ k v reg).1.m_data
    rw [LRU.try_emplace_rv_eq, LRU.try_emplace_eq_emplace]
    exact LRU.emplace_keeps c _ _ _ _ hm
  | operator_index k reg => cases hs; exact LRU.operator_index_keeps c _ _ hm
  | erase k => cases hs; exact h.erase_keeps hm hsp
  | erase_pos pos =>
    simp only [LRU.step, Option.map_eq_some'] at hs
    obtain ⟨r, hr, rfl⟩ := hs
    exact LRU.erase_pos_keeps hm hsp hr
  | erase_range first last =>
    simp only [LRU.step, LRU.erase_range_state, Option.map_eq_some'] at hs
    obtain ⟨r, hr, rfl⟩ := hs
    obtain ⟨pre, mid, post, hl, hfirst, hlast, hnot⟩ := hsp
    subst hfirst hlast
    have hlen : mid.length ≤ c.m_data.length := by
      rw [hl]; simp only [List.length_append]; omega
    obtain ⟨c2, hrun, hd, _, _⟩ :=
      LRU.erase_range_loop_spec mid c.m_data.length c pre post h hl hlen
    have hr2 : LRU.erase_range_loop c.m_data.length c ((mid ++ post).head?.map Node.id)
        (post.head?.map Node.id) = some r := hr
    rw [hrun] at hr2
    cases hr2
    rw [hd]
    rw [hl] at hm
    rcases List.mem_append.mp hm with hp | hp
    · exact List.mem_append_left _ hp
    · rcases List.mem_append.mp hp with hq | hq
      · exact absurd hq hnot
      · exact List.mem_append_right _ hq
  | splice pos it2 => exact LRU.splice_keeps hm hs
  | bump_front it2 => exact LRU.splice_keeps hm hs
  | bump_back it2 => exact LRU.splice_keeps hm hs
  | clear => exact absurd hsp (by simp [Op.spares])
  | assign it2 v => exact LRU.assign_keeps hm hsp hs

theorem C18_handle_stability_witness :
    ((⟨[⟨2, 2, 20⟩, ⟨3, 7, 70⟩, ⟨1, 1, 10⟩], [(7, 3), (2, 2), (1, 1)]⟩ : LRU Nat Nat).deref (some 1)
      = some ⟨1, 1, 10⟩) :=
  C18_handle_stability sampleLRU sampleLRU_consistent (some 1) ⟨1, 1, 10⟩ rfl
    (Op.emplace (some 1) 7 70 true) trivial _ rfl

end HandleStability

/-! ## Degenerate repositioning -/

section DegenerateSplice

variable {K V : Type} [DecidableEq K]

theorem list_emplace_before_next {pre post : List (Node K V)} {e : Node K V}
    (hnd : ((pre ++ e :: post).map Node.id).Nodup) :
    list_emplace (pre ++ post) (post.head?.map Node.id) e = pre ++ e :: post := by
  cases post with
  | nil =>
    show list_emplace (pre ++ []) none e = pre ++ [e]
    rw [list_emplace_end, List.append_nil]
  | cons p post =>
    have hpre : ∀ a ∈ pre, decide (some a.id ≠ Option.map Node.id (p :: post).head?) = true := by
      intro a ha
      rw [List.map_append, List.nodup_append] at hnd
      have hdis := hnd.2.2
      have : a.id ≠ p.id := by
        intro hap
        refine hdis (List.mem_map_of_mem Node.id ha) ?_
        rw [hap]
        exact List.mem_map_of_mem Node.id (List.mem_cons_of_mem _ (List.mem_cons_self _ _))
      simpa using this
    unfold list_emplace
    rw [List.takeWhile_append_of_pos hpre, List.dropWhile_append_of_pos hpre,
      List.takeWhile_cons_of_neg (by simp), List.dropWhile_cons_of_neg (by simp),
      List.append_nil]

theorem front_split_nil {pre post : List (Node K V)} {e : Node K V}
    (hnd : ((pre ++ e :: post).map Node.id).Nodup) (hf : (pre ++ e :: post).head? = some e) :
    pre = [] := by
  cases pre with
  | nil => rfl
  | cons a pre =>
    exfalso
    simp only [List.cons_append, List.head?_cons, Option.some.injEq] at hf
    rw [List.cons_append, List.map_cons, List.nodup_cons] at hnd
    apply hnd.1
    rw [hf]
    exact List.mem_map_of_mem Node.id (List.mem_append_right _ (List.mem_cons_self _ _))

theorem back_split_nil {pre post : List (Node K V)} {e : Node K V}
    (hnd : ((pre ++ e :: post).map Node.id).Nodup) (hb : (pre ++ e :: post).getLast? = some e) :
    post = [] := by
  cases post with
  | nil => rfl
  | cons p post =>
    exfalso
    obtain ⟨ys, hys⟩ := List.getLast?_eq_some_iff.mp hb
    have hlast : (p :: post).getLast? = some e := by
      have h1 : (pre ++ e :: p :: post).getLast? = (p :: post).getLast? := by
        rw [List.getLast?_append, List.getLast?_cons_cons]
        cases hq : (p :: post).getLast? with
        | none => simp at hq
        | some x => rfl
      rw [← h1]; exact hb
    obtain ⟨zs, hzs⟩ := List.getLast?_eq_some_iff.mp hlast
    have hmem : e ∈ p :: post := by rw [hzs]; simp
    rw [List.map_append, List.nodup_append] at hnd
    have h2 := hnd.2.1
    rw [List.map_cons, List.nodup_cons] at h2
    exact h2.1 (List.mem_map_of_mem Node.id hmem)

namespace LRU

theorem Consistent.splice_next {c : LRU K V} (h : c.Consistent) {pre post : List (Node K V)}
    {e : Node K V} (hl : c.m_data = pre ++ e :: post) :
    c.splice (post.head?.map Node.id) (some e.id) = some c := by
  have hnd := h.ids_nodup
  rw [hl] at hnd
  have hne : post.head?.map Node.id ≠ (some e.id : iterator) := by
    have := head_id_ne_of_nodup
      (show ((pre ++ (e :: [] ++ post)).map Node.id).Nodup from by simpa using hnd)
    exact fun hh => this hh.symm
  have hv : c.validPos (post.head?.map Node.id) = true := by
    cases post with
    | nil => rfl
    | cons p post =>
      show c.validPos (some p.id) = true
      rw [validPos_some_iff]
      exact ⟨p, by rw [hl]; simp, rfl⟩
  rw [h.splice_at hl hv hne, list_emplace_before_next hnd, ← hl]

theorem Consistent.bump_front_at {c : LRU K V} (h : c.Consistent) {pre post : List (Node K V)}
    {e : Node K V} (hl : c.m_data = pre ++ e :: post) :
    ∃ c1 : LRU K V, c.bump_front (some e.id) = some c1 ∧ c1.m_data = e :: (pre ++ post) := by
  have hmem : e ∈ c.m_data := by rw [hl]; simp
  unfold bump_front
  cases pre with
  | nil =>
    have hb : c.begin = some e.id := by unfold begin; rw [hl]; rfl
    rw [hb, h.splice_self hmem]
    exact ⟨c, rfl, by simpa using hl⟩
  | cons p pre =>
    have hb : c.begin = some p.id := by unfold begin; rw [hl]; rfl
    have hnd := h.ids_nodup
    rw [hl, List.cons_append, List.map_cons, List.nodup_cons] at hnd
    have hne : (some p.id : iterator) ≠ some e.id := by
      intro hpe
      apply hnd.1
      rw [Option.some.inj hpe]
      exact List.mem_map_of_mem Node.id (List.mem_append_right _ (List.mem_cons_self _ _))
    have hv : c.validPos (some p.id) = true := hb ▸ validPos_begin c
    rw [hb, h.splice_at hl hv hne]
    exact ⟨_, rfl, list_emplace_begin (p :: pre ++ post) e⟩

end LRU

/-- C21: in a consistent container, for every handle `it` that resolves to an entry `e`, the
sequence being `pre ++ e :: post`: `splice(it, it)` and `splice(n, it)`, `n` the position right
after `e` (the handle of the first entry of `post`, `end()` when `e` is last; it is what
`std::list` gives as the successor of `e`), return the container unchanged, so order, size and
all lookups are as before.  Hence `bump_front` of the entry that is `front()` and `bump_back` of
the entry that is `back()` change nothing, and a second `bump_front(it)` after a first one
changes nothing. -/
theorem C21_degenerate_splice_identity (c : LRU K V) (h : c.Consistent) (it : iterator)
    (e : Node K V) (he : c.deref it = some e) :
    ∃ pre post : List (Node K V),
      c.m_data = pre ++ e :: post ∧
      list_next c.m_data e.id = post.head?.map Node.id ∧
      c.splice it it = some c ∧
      c.splice (post.head?.map Node.id) it = some c ∧
      (c.front = some e → c.bump_front it = some c) ∧
      (c.back = some e → c.bump_back it = some c) ∧
      (∃ c1 : LRU K V, c.bump_front it = some c1 ∧ c1.bump_front it = some c1) := by
  obtain ⟨hit, pre, post, hl⟩ := h.split_of_deref he
  subst hit
  have hmem : e ∈ c.m_data := by rw [hl]; simp
  have hnd := h.ids_nodup
  rw [hl] at hnd
  refine ⟨pre, post, hl, ?_, h.splice_self hmem, h.splice_next hl, ?_, ?_, ?_⟩
  · rw [hl]; exact list_next_at hnd
  · intro hf
    unfold LRU.front at hf
    rw [hl] at hf
    have hp := front_split_nil hnd hf
    subst hp
    have hb : c.begin = some e.id := by unfold LRU.begin; rw [hl]; rfl
    unfold LRU.bump_front
    rw [hb]
    exact h.splice_self hmem
  · intro hb
    unfold LRU.back at hb
    rw [hl] at hb
    have hp := back_split_nil hnd hb
    subst hp
    unfold LRU.bump_back LRU.end_
    exact h.splice_next hl
  · obtain ⟨c1, hs, hd⟩ := h.bump_front_at hl
    have hc1 : c1.Consistent := LRU.splice_consistent h hs
    have hmem1 : e ∈ c1.m_data := by rw [hd]; exact List.mem_cons_self _ _
    refine ⟨c1, hs, ?_⟩
    have hb : c1.begin = some e.id := by unfold LRU.begin; rw [hd]; rfl
    unfold LRU.bump_front
    rw [hb]
    exact hc1.splice_self hmem1

theorem C21_degenerate_splice_identity_witness :
    ∃ pre post : List (Node Nat Nat),
      sampleLRU.m_data = pre ++ ⟨2, 2, 20⟩ :: post ∧
      list_next sampleLRU.m_data (⟨2, 2, 20⟩ : Node Nat Nat).id = post.head?.map Node.id ∧
      sampleLRU.splice (some 2) (some 2) = some sampleLRU ∧
      sampleLRU.splice (post.head?.map Node.id) (some 2) = some sampleLRU ∧
      (sampleLRU.front = some ⟨2, 2, 20⟩ → sampleLRU.bump_front (some 2) = some sampleLRU) ∧
      (sampleLRU.back = some ⟨2, 2, 20⟩ → sampleLRU.bump_back (some 2) = some sampleLRU) ∧
      (∃ c1 : LRU Nat Nat,
        sampleLRU.bump_front (some 2) = some c1 ∧ c1.bump_front (some 2) = some c1) :=
  C21_degenerate_splice_identity sampleLRU sampleLRU_consistent (some 2) ⟨2, 2, 20⟩ rfl

end DegenerateSplice
